import Mathlib

/-!
Verification development for the workspace/project membership model of the
wuff analyzer (src/src/WooWooAnalyzer.cpp, src/src/project/WooWooProject.cpp,
src/src/project/Woofile.cpp).

Shallow embedding conventions:
- An absolute filesystem path is the list of its components after the root
  separator, so the C++ path "/w/a.woo" is the Lean list ["w", "a.woo"].
  With that reading, fs::path::parent_path is List.dropLast (parent_path of
  the filesystem root "/" is "/" itself, and dropLast [] = []), and
  fs::path::filename is the last component (empty for the root).
  generic_string is injective on such normalized absolute paths, so the
  std::map keys (which the code builds with generic_string) are modelled by
  the paths themselves.
- The filesystem seen by the analyzer is a value: a list of regular-file
  paths, a list of directory paths, and the parse outcome of each marker
  file's YAML content.  fs::recursive_directory_iterator over a directory
  enumerates the files strictly below it (the code filters every entry with
  is_regular_file, so directories need not be enumerated); constructing the
  iterator on a path that is not an existing directory throws
  std::filesystem::filesystem_error, modelled with Except.
- shared_ptr aliasing of documents matters for the rename claims, so
  documents live in a heap indexed by allocation ids; a project's std::map
  from generic_string keys to shared_ptr values becomes an association list
  from paths to heap ids, and mutating a document through one handle is a
  heap update visible through every other handle of the same id.
-/

set_option autoImplicit false

namespace Wuff

/-- An absolute filesystem path, as its list of components after the root. -/
abbrev Path := List String

/-- The document heap: allocation id to document payload. -/
abbrev DocId := Nat

/-- fs::path::filename as a string: the last component, empty for the root. -/
def filename (p : Path) : String :=
  p.getLastD ""

/-- The character suffix starting at the last period of a filename: reverse
the characters, split at the first period of the reversal (the last period
of the name), and rebuild.  When the period found is the name's first
character (a dotfile such as ".profile", whose remaining reversed characters
are empty), there is no extension. -/
def charsExtension (cs : List Char) : List Char :=
  let rev := cs.reverse
  match rev.dropWhile (fun c => decide (c ≠ '.')) with
  | [] => []
  | _ :: rest =>
    if rest.isEmpty then []
    else '.' :: (rev.takeWhile (fun c => decide (c ≠ '.'))).reverse

/-- fs::path::extension of a filename, as its character list: the suffix
starting at the last period, except that ".", ".." and a dotfile whose only
period is the leading one have no extension. -/
def fileExtension (name : String) : List Char :=
  if name = "." ∨ name = ".." then [] else charsExtension name.data

/-- entry.path().extension() == ".woo", the filter used by the bulk scans
(WooWooAnalyzer::findAllWooFiles and the WooWooProject constructor). -/
def hasWooExtension (p : Path) : Bool :=
  decide (fileExtension (filename p) = ['.', 'w', 'o', 'o'])

/-- utils::endsWith(path, ".woo") on the path's generic_string, the filter
used by WooWooAnalyzer::renameFiles.  Since ".woo" contains no separator,
the joined string ends with ".woo" exactly when the last component does,
that is, when its last four characters read ".woo". -/
def endsWithWoo (p : Path) : Bool :=
  decide ((filename p).data.reverse.take 4 = ['o', 'o', 'w', '.'])

/-- dir is a proper ancestor directory of p (a strict prefix of its
component list). -/
def underDir (dir p : Path) : Bool :=
  decide (dir.length < p.length) && decide (dir = p.take dir.length)

/-- Minimal YAML data model for the marker-file schema (the YAML library is
an external collaborator; only nested string maps and scalars are relevant
to the Woofile schema). -/
inductive Yaml where
  | str : String → Yaml
  | node : List (String × Yaml) → Yaml
deriving Repr

/-- The filesystem as a value: regular files, directories, and the parse
outcome of each marker file's content (YAML::LoadFile either yields a
document or throws; the outcome for a given marker path is part of the
modelled world). -/
structure FileSystem where
  files : List Path
  dirs : List Path
  markerYaml : List (Path × Except String Yaml)
deriving Repr

/-- fs::is_directory. -/
def FileSystem.isDirB (fs : FileSystem) (p : Path) : Bool :=
  decide (p ∈ fs.dirs)

/-- fs::exists: a regular file or a directory. -/
def FileSystem.existsB (fs : FileSystem) (p : Path) : Bool :=
  decide (p ∈ fs.files) || fs.isDirB p

/-- The regular files strictly below a directory, as enumerated by
fs::recursive_directory_iterator and kept by an is_regular_file filter. -/
def recursiveFiles (fs : FileSystem) (root : Path) : List Path :=
  fs.files.filter (fun f => underDir root f)

/-- Constructing fs::recursive_directory_iterator on a path that is not an
existing directory throws std::filesystem::filesystem_error. -/
def recursiveIter (fs : FileSystem) (root : Path) : Except String (List Path) :=
  if fs.isDirB root then .ok (recursiveFiles fs root) else .error "filesystem error"

/-- Modelled from the spec: URI↔path conversion (utils::uriToPathString) is
an external collaborator out of scope; URIs are carried as the normalized
paths they denote and the conversion is the identity. -/
def uriToPathString (uri : Path) : Path :=
  uri

/-- Modelled from the spec: a Document is an opaque unit identified by a
path and holding mutable source text (DialectedWooWooDocument's parsing
machinery is external to the membership model). -/
structure WooWooDocument where
  documentPath : Path
  source : String
deriving Repr, DecidableEq

/-- The heap of live documents: allocation id to payload. -/
abbrev Heap := List (DocId × WooWooDocument)

/-- Dereference a document handle. -/
def heapLookup (d : DocId) : Heap → Option WooWooDocument
  | [] => none
  | e :: r => if e.1 = d then some e.2 else heapLookup d r

/-- document->documentPath through a handle (handles are only dereferenced
where the C++ pointer is live, which theorems track with hypotheses). -/
def heapPathOf (h : Heap) (d : DocId) : Path :=
  ((heapLookup d h).map (fun doc => doc.documentPath)).getD []

/-- document->documentPath = newPath through a handle: updates the single
shared object, visible through every alias of the id. -/
def heapSetPath (d : DocId) (newPath : Path) : Heap → Heap
  | [] => []
  | e :: r =>
    if e.1 = d then (e.1, { e.2 with documentPath := newPath }) :: heapSetPath d newPath r
    else e :: heapSetPath d newPath r

/-- Modelled from the spec: document->updateSource replaces the document's
text in place (WooWooDocument::updateSource is outside src/). -/
def heapSetSource (d : DocId) (t : String) : Heap → Heap
  | [] => []
  | e :: r =>
    if e.1 = d then (e.1, { e.2 with source := t }) :: heapSetSource d t r
    else e :: heapSetSource d t r

/-- std::map lookup by key (map keys are unique; on the association lists
built here the first match is the match). -/
def assocLookup (k : Path) : List (Path × DocId) → Option DocId
  | [] => none
  | e :: r => if e.1 = k then some e.2 else assocLookup k r

/-- std::map operator[] assignment: replace the entry at the key if present,
otherwise add one. -/
def mapInsert (k : Path) (v : DocId) : List (Path × DocId) → List (Path × DocId)
  | [] => [(k, v)]
  | e :: r => if e.1 = k then (k, v) :: r else e :: mapInsert k v r

/-- std::map find-then-erase of the entry at a key (unique in a std::map, so
erasing the first occurrence is the whole effect). -/
def eraseKeyFirst (k : Path) : List (Path × DocId) → List (Path × DocId)
  | [] => []
  | e :: r => if e.1 = k then r else e :: eraseKeyFirst k r

/-- Per-project configuration parsed from the marker file
(src/src/project/Woofile.cpp). -/
structure Woofile where
  bibtex : String
deriving Repr, DecidableEq

/-- YAML node truthiness-and-indexing: node[key] is defined when the node is
a map containing the key. -/
def Yaml.getKey : Yaml → String → Option Yaml
  | .node kvs, k => kvs.lookup k
  | _, _ => none

/-- Woofile::deserialize: reads builder.bibtex when both keys are defined,
otherwise clears the field; the string conversion of a defined non-scalar
node throws a conversion error. -/
def Woofile.deserialize (node : Yaml) : Except String Woofile :=
  match node.getKey "builder" with
  | some b =>
    match b.getKey "bibtex" with
    | some v =>
      match v with
      | .str s => .ok { bibtex := s }
      | _ => .error "bad conversion"
    | none => .ok { bibtex := "" }
  | none => .ok { bibtex := "" }

/-- Woofile::Woofile: YAML::LoadFile on folder/Woofile (propagating its
parse failure on malformed content), then deserialize. -/
def Woofile.construct (fs : FileSystem) (projectFolderPath : Path) : Except String Woofile := do
  let node ← match (fs.markerYaml.lookup (projectFolderPath ++ ["Woofile"])).getD (.error "file not loadable") with
    | .ok n => Except.ok n
    | .error e => Except.error e
  Woofile.deserialize node

/-- A WooWooProject: optional folder path (none for the null/orphan
project), the optional parsed configuration, and the path-keyed document
map holding shared handles. -/
structure WooWooProject where
  projectFolderPath : Option Path
  woofile : Option Woofile
  documents : List (Path × DocId)
deriving Repr, DecidableEq

/-- WooWooProject::getDocument(path): exact key lookup. -/
def WooWooProject.getDocument (p : WooWooProject) (k : Path) : Option DocId :=
  assocLookup k p.documents

/-- WooWooProject::getDocument(document*) and ::getDocumentShared: scan the
map for the first entry whose stored document's path equals the target
document's path, and return its handle. -/
def WooWooProject.findByDocPath (h : Heap) (p : WooWooProject) (tPath : Path) : Option DocId :=
  (p.documents.find? (fun e => decide (heapPathOf h e.2 = tPath))).map (fun e => e.2)

/-- WooWooProject::deleteDocument(document*): erase the entry at the key
equal to the document's current path, if present. -/
def WooWooProject.deleteDoc (h : Heap) (p : WooWooProject) (d : DocId) : WooWooProject :=
  { p with documents := eraseKeyFirst (heapPathOf h d) p.documents }

/-- WooWooProject::addDocument: insert a pre-existing shared handle under
its document's current path. -/
def WooWooProject.addDocument (h : Heap) (p : WooWooProject) (sh : DocId) : WooWooProject :=
  { p with documents := mapInsert (heapPathOf h sh) sh p.documents }

/-- WooWooProject::loadDocument: allocate a fresh document for the path and
insert (or overwrite) the entry at that key. -/
def projLoadDocument (p : WooWooProject) (h : Heap) (nid : DocId) (documentPath : Path) :
    WooWooProject × Heap × DocId :=
  ({ p with documents := mapInsert documentPath nid p.documents },
   h ++ [(nid, { documentPath := documentPath, source := "" })], nid + 1)

/-- The loadDocument loop of the WooWooProject folder constructor over the
scanned file list (each call allocates a fresh document). -/
def projLoadDocuments (docs : List (Path × DocId)) (h : Heap) (nid : DocId) :
    List Path → List (Path × DocId) × Heap × DocId
  | [] => (docs, h, nid)
  | f :: rest =>
    projLoadDocuments (mapInsert f nid docs)
      (h ++ [(nid, { documentPath := f, source := "" })]) (nid + 1) rest

/-- WooWooProject::WooWooProject(folder): Woofile parsing is disabled in the
code (woofile = nullptr), then every ".woo" regular file found by a
recursive scan of the folder is loaded.  The folder is the parent of a
marker file that exists, so the recursive iteration succeeds. -/
def mkWooWooProject (fs : FileSystem) (projectFolderPath : Path) (h : Heap) (nid : DocId) :
    WooWooProject × Heap × DocId :=
  let wooFiles := (recursiveFiles fs projectFolderPath).filter hasWooExtension
  let r := projLoadDocuments [] h nid wooFiles
  ({ projectFolderPath := some projectFolderPath, woofile := none, documents := r.1 },
   r.2.1, r.2.2)

/-- The whole analyzer state: workspace root, the set of projects (held as a
list; the C++ std::set of pointers iterates in an arbitrary but fixed
order), the document heap and the next allocation id. -/
structure AnalyzerState where
  workspaceRootPath : Path
  projects : List WooWooProject
  docHeap : Heap
  nextId : DocId
deriving Repr, DecidableEq

/-- First project (in iteration order) for which the query yields a
document: the shape of every scan across projects in WooWooAnalyzer. -/
def firstDoc (k : Path) : List WooWooProject → Option DocId
  | [] => none
  | p :: ps =>
    match p.getDocument k with
    | some d => some d
    | none => firstDoc k ps

/-- Index of the first project satisfying a predicate (the C++ loops return
the pointer; the model returns the position so the project can be updated in
place). -/
def firstIdxWhere (q : WooWooProject → Bool) : List WooWooProject → Option Nat
  | [] => none
  | p :: ps => if q p then some 0 else (firstIdxWhere q ps).map (fun i => i + 1)

/-- Update the project at a position, leaving the rest unchanged. -/
def updateAt : List WooWooProject → Nat → (WooWooProject → WooWooProject) → List WooWooProject
  | [], _, _ => []
  | p :: ps, 0, f => f p :: ps
  | p :: ps, i + 1, f => p :: updateAt ps i f

/-- WooWooAnalyzer::getDocument(path): scan the projects, returning the
first hit. -/
def AnalyzerState.getDocument (s : AnalyzerState) (k : Path) : Option DocId :=
  firstDoc k s.projects

/-- The while loop of WooWooAnalyzer::findProjectFolder, phrased on the
reversed component list of the current directory so that ascending one
level (dropLast) is the structural step (tail of the reversal).  While the
current directory is neither the workspace root's parent nor its own parent
(the filesystem root, the empty component list), return it if it contains a
Woofile, else ascend. -/
def findProjectFolderRev (fs : FileSystem) (workspaceRootParent : Path) :
    List String → Option Path
  | [] => none
  | c :: rest =>
    let parent := (c :: rest).reverse
    if parent = workspaceRootParent then none
    else if fs.existsB (parent ++ ["Woofile"]) then some parent
    else findProjectFolderRev fs workspaceRootParent rest

/-- The while loop of WooWooAnalyzer::findProjectFolder on the current
directory itself. -/
def findProjectFolderLoop (fs : FileSystem) (workspaceRootPath : Path) (parent : Path) :
    Option Path :=
  findProjectFolderRev fs workspaceRootPath.dropLast parent.reverse

/-- WooWooAnalyzer::findProjectFolder: convert the URI and start the upward
walk at the path's parent directory. -/
def findProjectFolder (fs : FileSystem) (workspaceRootPath : Path) (uri : Path) : Option Path :=
  findProjectFolderLoop fs workspaceRootPath (uriToPathString uri).dropLast

/-- WooWooAnalyzer::findAllWooFiles: guarded by exists and is_directory,
then the ".woo" regular files of the recursive scan (the std::set return
value only deduplicates and orders; membership is what the callers use). -/
def findAllWooFiles (fs : FileSystem) (rootPath : Path) : List Path :=
  if fs.existsB rootPath && fs.isDirB rootPath then
    (recursiveFiles fs rootPath).filter hasWooExtension
  else []

/-- WooWooAnalyzer::findProjectFolders: unguarded recursive iteration (it
throws when the root is not an existing directory), keeping the parent of
every regular file named Woofile. -/
def findProjectFolders (fs : FileSystem) (rootPath : Path) : Except String (List Path) :=
  (recursiveIter fs rootPath).map
    (fun entries => (entries.filter (fun f => filename f == "Woofile")).map List.dropLast)

/-- The project-construction loop of loadWorkspace: one WooWooProject per
discovered folder, threading the document heap through. -/
def loadFolderProjects (fs : FileSystem) (h : Heap) (nid : DocId) :
    List Path → List WooWooProject × Heap × DocId
  | [] => ([], h, nid)
  | a :: rest =>
    let r1 := mkWooWooProject fs a h nid
    let r2 := loadFolderProjects fs r1.2.1 r1.2.2 rest
    (r1.1 :: r2.1, r2.2.1, r2.2.2)

/-- The orphan-assignment loop of loadWorkspace: each scanned ".woo" file
not claimed by any project (the folder projects, which the loop never
changes, or the null project with its contents so far) is loaded into the
null project. -/
def loadOrphanDocs (folderProjects : List WooWooProject) (orphan : WooWooProject)
    (h : Heap) (nid : DocId) : List Path → WooWooProject × Heap × DocId
  | [] => (orphan, h, nid)
  | f :: rest =>
    if (folderProjects ++ [orphan]).any (fun p => (p.getDocument f).isSome) then
      loadOrphanDocs folderProjects orphan h nid rest
    else
      let r := projLoadDocument orphan h nid f
      loadOrphanDocs folderProjects r.1 r.2.1 r.2.2 rest

/-- WooWooAnalyzer::loadWorkspace: resolve the root, build one project per
marker folder, add the null project, then assign every unclaimed ".woo"
file to the null project.  The std::set of projects iterates in an
arbitrary fixed order; the model lists the folder projects in discovery
order with the null project last. -/
def loadWorkspace (fs : FileSystem) (workspaceUri : Path) : Except String AnalyzerState :=
  let root := uriToPathString workspaceUri
  match findProjectFolders fs root with
  | .error e => .error e
  | .ok folders =>
    let r1 := loadFolderProjects fs [] 0 folders
    let nullProject : WooWooProject :=
      { projectFolderPath := none, woofile := none, documents := [] }
    let wooFiles := findAllWooFiles fs root
    let r2 := loadOrphanDocs r1.1 nullProject r1.2.1 r1.2.2 wooFiles
    .ok { workspaceRootPath := root, projects := r1.1 ++ [r2.1],
          docHeap := r2.2.1, nextId := r2.2.2 }

/-- WooWooAnalyzer::handleDocumentChange: update the document's text in
place when the path is known, otherwise do nothing. -/
def handleDocumentChange (s : AnalyzerState) (uri : Path) (source : String) : AnalyzerState :=
  match s.getDocument (uriToPathString uri) with
  | none => s
  | some d => { s with docHeap := heapSetSource d source s.docHeap }

/-- WooWooAnalyzer::deleteDocument(document*): a null document is ignored;
otherwise every project erases the entry at the document's path. -/
def analyzerDeleteDocument (s : AnalyzerState) (d : Option DocId) : AnalyzerState :=
  match d with
  | none => s
  | some d =>
    { s with projects := s.projects.map (fun p => p.deleteDoc s.docHeap d) }

/-- WooWooAnalyzer::didDeleteFiles: resolve each URI and delete the
resolvable documents; unknown paths are skipped. -/
def didDeleteFiles (s : AnalyzerState) (uris : List Path) : AnalyzerState :=
  uris.foldl (fun st u => analyzerDeleteDocument st (st.getDocument (uriToPathString u))) s

/-- WooWooAnalyzer::openDocument: when the path is unknown, resolve the
owning project with findProjectFolder (falling back to the null project)
and load a new document into it. -/
def openDocument (fs : FileSystem) (s : AnalyzerState) (uri : Path) : AnalyzerState :=
  let docPath := uriToPathString uri
  if (s.getDocument docPath).isSome then s
  else
    let projectFolder := findProjectFolder fs s.workspaceRootPath uri
    let pi0 := firstIdxWhere (fun p => decide (p.projectFolderPath = projectFolder)) s.projects
    let pi1 := match pi0 with
      | some i => some i
      | none => firstIdxWhere (fun p => decide (p.projectFolderPath = none)) s.projects
    match pi1 with
    | none => s
    | some i =>
      { s with
        projects := updateAt s.projects i
          (fun p => { p with documents := mapInsert docPath s.nextId p.documents }),
        docHeap := s.docHeap ++ [(s.nextId, { documentPath := docPath, source := "" })],
        nextId := s.nextId + 1 }

/-- One pair of WooWooAnalyzer::renameFiles.  source→source: look up the
document at the old path (skip the pair if absent), find its project by
document identity (path equality) and take the shared handle, resolve the
destination project (falling back to the null project); then set the
document's stored path to the new path, call deleteDocument on the old
project (which looks up the document's now-updated path), add the shared
handle to the destination keyed by its current path, and record the pair.
source→non-source: delete the old document.  Anything else: no action. -/
def renameOne (fs : FileSystem) (s : AnalyzerState) (oldUri newUri : Path) :
    AnalyzerState × List (Path × Path) :=
  let oldPath := uriToPathString oldUri
  let newPath := uriToPathString newUri
  if endsWithWoo oldPath && endsWithWoo newPath then
    match s.getDocument oldPath with
    | none => (s, [])
    | some d =>
      match firstIdxWhere (fun p => (p.findByDocPath s.docHeap (heapPathOf s.docHeap d)).isSome)
          s.projects with
      | none => (s, [])
      | some oi =>
        let documentShared :=
          s.projects[oi]?.bind
            (fun p => p.findByDocPath s.docHeap (heapPathOf s.docHeap d))
        let newProjectFolder := findProjectFolder fs s.workspaceRootPath newUri
        let ni1 := match firstIdxWhere (fun p => decide (p.projectFolderPath = newProjectFolder))
            s.projects with
          | some i => some i
          | none => firstIdxWhere (fun p => decide (p.projectFolderPath = none)) s.projects
        let s1 := match ni1, documentShared with
          | some ni, some sh =>
            let heap1 := heapSetPath d newPath s.docHeap
            let ps1 := updateAt s.projects oi (fun p => p.deleteDoc heap1 d)
            let ps2 := updateAt ps1 ni (fun p => p.addDocument heap1 sh)
            { s with docHeap := heap1, projects := ps2 }
          | _, _ => s
        (s1, [(oldPath, newPath)])
  else if endsWithWoo oldPath then
    (analyzerDeleteDocument s (s.getDocument (uriToPathString oldPath)), [])
  else
    (s, [])

/-- One iteration of the renameFiles loop: process the pair against the
accumulated state and append the recorded renames. -/
def renameStep (fs : FileSystem) (acc : AnalyzerState × List (Path × Path))
    (pr : Path × Path) : AnalyzerState × List (Path × Path) :=
  let r := renameOne fs acc.1 pr.1 pr.2
  (r.1, acc.2 ++ r.2)

/-- WooWooAnalyzer::renameFiles over the whole batch: all membership and
path mutations, plus the recorded (oldPath, newPath) list that is then
handed to the external reference rewriter. -/
def renameFiles (fs : FileSystem) (s : AnalyzerState) (renames : List (Path × Path)) :
    AnalyzerState × List (Path × Path) :=
  renames.foldl (renameStep fs) (s, [])

/-- Modelled from the spec: a mutation made through a previously obtained
document handle (the shared-handle contract of the Document component)
replaces the shared object's text, as updateSource does. -/
def mutateSource (s : AnalyzerState) (d : DocId) (t : String) : AnalyzerState :=
  { s with docHeap := heapSetSource d t s.docHeap }

/-- Modelled from the spec's words, for comparison with the source-derived
findProjectFolder: the chain of directories the upward boundary search
visits, starting at the given directory, ascending one level at a time and
stopping at the workspace root's parent or at a directory that is its own
parent. -/
def ancestorWalk (workspaceRootPath : Path) (parent : Path) : List Path :=
  if h : parent ≠ workspaceRootPath.dropLast ∧ parent ≠ parent.dropLast then
    parent :: ancestorWalk workspaceRootPath parent.dropLast
  else []
termination_by parent.length
decreasing_by
  have hne : parent ≠ [] := by
    intro hnil
    exact h.2 (by simp [hnil])
  have : parent.length ≠ 0 := by simpa using hne
  simp [List.length_dropLast]
  omega

/-- A directory holds a marker when the regular file dir/Woofile exists. -/
def isMarkerDir (fs : FileSystem) (dir : Path) : Bool :=
  decide ((dir ++ ["Woofile"]) ∈ fs.files)

/-- A path together with all its ancestors, nearest first, phrased on the
reversed component list so the descent is structural. -/
def ancestorsRev : List String → List Path
  | [] => [[]]
  | c :: rest => (c :: rest).reverse :: ancestorsRev rest

/-- A path together with all its ancestors, nearest first. -/
def selfAndAncestors (p : Path) : List Path :=
  ancestorsRev p.reverse

/-- Modelled from the spec's words (the nearest-ancestor-marker-or-orphan
ownership rule): the nearest proper ancestor directory of the path that
contains a marker file, none when there is no such ancestor. -/
def nearestMarkerAncestor (fs : FileSystem) (p : Path) : Option Path :=
  (selfAndAncestors p.dropLast).find? (fun dir => isMarkerDir fs dir)

/-- A single map entry stores a live document whose stored path equals the
entry's key. -/
def entryConsistentB (h : Heap) (e : Path × DocId) : Bool :=
  (heapLookup e.2 h).isSome && decide (heapPathOf h e.2 = e.1)

/-- Every map entry of every project stores a live document whose stored
path equals the entry's key (spec invariant I5: inserts and lookups agree
on one canonical key form). -/
def pathsConsistentB (s : AnalyzerState) : Bool :=
  s.projects.all (fun p => p.documents.all (entryConsistentB s.docHeap))

/-- The keys of a project's map are pairwise distinct (std::map keys are
unique). -/
def keysNodup (p : WooWooProject) : Prop :=
  (p.documents.map (fun e => e.1)).Nodup

/-! ### Association-list and heap lemmas -/

theorem assocLookup_mapInsert (k k' : Path) (v : DocId) (l : List (Path × DocId)) :
    assocLookup k' (mapInsert k v l) = if k' = k then some v else assocLookup k' l := by
  induction l with
  | nil =>
    by_cases h2 : k' = k
    · simp [mapInsert, assocLookup, h2]
    · simp [mapInsert, assocLookup, h2, Ne.symm h2]
  | cons e r ih =>
    by_cases h1 : e.1 = k
    · by_cases h2 : k' = k
      · simp [mapInsert, assocLookup, h1, h2]
      · simp [mapInsert, assocLookup, h1, h2, Ne.symm h2]
    · by_cases h2 : e.1 = k'
      · have h3 : ¬ k' = k := fun hk => h1 (h2.trans hk)
        simp [mapInsert, assocLookup, h1, h2, h3]
      · simp [mapInsert, assocLookup, h1, h2, ih]

theorem mem_of_assocLookup_eq_some {k : Path} {v : DocId} {l : List (Path × DocId)}
    (h : assocLookup k l = some v) : (k, v) ∈ l := by
  induction l with
  | nil => simp [assocLookup] at h
  | cons e r ih =>
    by_cases h1 : e.1 = k
    · simp only [assocLookup, h1, if_pos] at h
      have hv : e.2 = v := Option.some.inj h
      rw [List.mem_cons]
      left
      rw [← h1, ← hv]
    · simp only [assocLookup, h1, if_neg, if_false] at h
      exact List.mem_cons_of_mem _ (ih h)

theorem assocLookup_eq_none_iff (k : Path) (l : List (Path × DocId)) :
    assocLookup k l = none ↔ ∀ e ∈ l, e.1 ≠ k := by
  induction l with
  | nil => simp [assocLookup]
  | cons e r ih =>
    by_cases h1 : e.1 = k <;> simp [assocLookup, h1, ih]

theorem eraseKeyFirst_of_no_key {k : Path} {l : List (Path × DocId)}
    (h : ∀ e ∈ l, e.1 ≠ k) : eraseKeyFirst k l = l := by
  induction l with
  | nil => rfl
  | cons e r ih =>
    have he : e.1 ≠ k := h e (List.mem_cons_self e r)
    simp only [eraseKeyFirst, if_neg he]
    rw [ih (fun x hx => h x (List.mem_cons_of_mem e hx))]

theorem assocLookup_eraseKeyFirst_ne {k k' : Path} (hne : k' ≠ k) (l : List (Path × DocId)) :
    assocLookup k' (eraseKeyFirst k l) = assocLookup k' l := by
  induction l with
  | nil => rfl
  | cons e r ih =>
    by_cases h1 : e.1 = k
    · have h3 : e.1 ≠ k' := fun h2 => hne (h2.symm.trans h1)
      simp [eraseKeyFirst, assocLookup, h1, h3, Ne.symm hne]
    · by_cases h2 : e.1 = k' <;> simp [eraseKeyFirst, assocLookup, h1, h2, ih, hne, Ne.symm hne]

theorem assocLookup_eraseKeyFirst_self {k : Path} {l : List (Path × DocId)}
    (hnd : (l.map (fun e => e.1)).Nodup) : assocLookup k (eraseKeyFirst k l) = none := by
  induction l with
  | nil => rfl
  | cons e r ih =>
    simp only [List.map_cons, List.nodup_cons] at hnd
    by_cases h1 : e.1 = k
    · simp only [eraseKeyFirst, if_pos h1]
      rw [assocLookup_eq_none_iff]
      intro x hx hxk
      exact hnd.1 (by rw [h1, ← hxk]; exact List.mem_map_of_mem _ hx)
    · simp [eraseKeyFirst, assocLookup, h1, ih hnd.2]

theorem heapLookup_heapSetPath_self (d : DocId) (np : Path) (h : Heap) :
    heapLookup d (heapSetPath d np h) =
      (heapLookup d h).map (fun doc => { doc with documentPath := np }) := by
  induction h with
  | nil => rfl
  | cons e r ih =>
    by_cases h1 : e.1 = d <;> simp [heapSetPath, heapLookup, h1, ih]

theorem heapLookup_heapSetPath_ne {d d' : DocId} (hne : d' ≠ d) (np : Path) (h : Heap) :
    heapLookup d' (heapSetPath d np h) = heapLookup d' h := by
  induction h with
  | nil => rfl
  | cons e r ih =>
    by_cases h1 : e.1 = d
    · have h3 : e.1 ≠ d' := fun h2 => hne (h2.symm.trans h1)
      simp [heapSetPath, heapLookup, h1, h3, hne, Ne.symm hne, ih]
    · by_cases h2 : e.1 = d' <;> simp [heapSetPath, heapLookup, h1, h2, hne, Ne.symm hne, ih]

theorem heapLookup_heapSetSource_self (d : DocId) (t : String) (h : Heap) :
    heapLookup d (heapSetSource d t h) =
      (heapLookup d h).map (fun doc => { doc with source := t }) := by
  induction h with
  | nil => rfl
  | cons e r ih =>
    by_cases h1 : e.1 = d <;> simp [heapSetSource, heapLookup, h1, ih]

theorem heapLookup_heapSetSource_ne {d d' : DocId} (hne : d' ≠ d) (t : String) (h : Heap) :
    heapLookup d' (heapSetSource d t h) = heapLookup d' h := by
  induction h with
  | nil => rfl
  | cons e r ih =>
    by_cases h1 : e.1 = d
    · have h3 : e.1 ≠ d' := fun h2 => hne (h2.symm.trans h1)
      simp [heapSetSource, heapLookup, h1, h3, hne, Ne.symm hne, ih]
    · by_cases h2 : e.1 = d' <;> simp [heapSetSource, heapLookup, h1, h2, hne, Ne.symm hne, ih]

theorem heapPathOf_heapSetSource (d d' : DocId) (t : String) (h : Heap) :
    heapPathOf (heapSetSource d t h) d' = heapPathOf h d' := by
  by_cases hd : d' = d
  · subst hd
    simp only [heapPathOf, heapLookup_heapSetSource_self]
    cases heapLookup d' h <;> rfl
  · simp [heapPathOf, heapLookup_heapSetSource_ne hd]

/-! ### Project-scan lemmas -/

theorem firstDoc_eq_none_iff (k : Path) (ps : List WooWooProject) :
    firstDoc k ps = none ↔ ∀ p ∈ ps, p.getDocument k = none := by
  induction ps with
  | nil => simp [firstDoc]
  | cons p rest ih =>
    cases hp : p.getDocument k <;> simp [firstDoc, hp, ih]

theorem firstDoc_eq_some_of_first {k : Path} {ps : List WooWooProject} {i : Nat}
    {p : WooWooProject} {d : DocId} (hp : ps[i]? = some p) (hd : p.getDocument k = some d)
    (hnone : ∀ j, j < i → ∀ p', ps[j]? = some p' → p'.getDocument k = none) :
    firstDoc k ps = some d := by
  induction ps generalizing i with
  | nil => simp at hp
  | cons q rest ih =>
    cases i with
    | zero =>
      simp only [List.getElem?_cons_zero] at hp
      cases hp
      simp [firstDoc, hd]
    | succ n =>
      have hq : q.getDocument k = none := hnone 0 (Nat.succ_pos n) q (by simp)
      simp only [List.getElem?_cons_succ] at hp
      simp only [firstDoc, hq]
      exact ih hp (fun j hj p' hp' => hnone (j + 1) (Nat.succ_lt_succ hj) p' (by simpa using hp'))

theorem firstIdxWhere_eq_some {q : WooWooProject → Bool} {ps : List WooWooProject} {i : Nat}
    (h : firstIdxWhere q ps = some i) :
    ∃ p, ps[i]? = some p ∧ q p = true ∧
      ∀ j, j < i → ∀ p', ps[j]? = some p' → q p' = false := by
  induction ps generalizing i with
  | nil => simp [firstIdxWhere] at h
  | cons p rest ih =>
    by_cases hq : q p
    · simp only [firstIdxWhere, if_pos hq] at h
      cases h
      exact ⟨p, by simp, hq, fun j hj p' hp' => absurd hj (Nat.not_lt_zero j)⟩
    · simp only [firstIdxWhere, if_neg hq] at h
      cases hrec : firstIdxWhere q rest with
      | none => simp [hrec] at h
      | some n =>
        rw [hrec] at h
        have hi : n + 1 = i := Option.some.inj h
        subst hi
        obtain ⟨p', hp', hqp', hbefore⟩ := ih hrec
        refine ⟨p', by simpa using hp', hqp', ?_⟩
        intro j hj p'' hp''
        cases j with
        | zero =>
          simp only [List.getElem?_cons_zero] at hp''
          cases hp''
          exact Bool.eq_false_iff.mpr hq
        | succ m =>
          simp only [List.getElem?_cons_succ] at hp''
          exact hbefore m (Nat.lt_of_succ_lt_succ hj) p'' hp''

theorem firstIdxWhere_isSome_of_mem {q : WooWooProject → Bool} {ps : List WooWooProject}
    {p : WooWooProject} (hmem : p ∈ ps) (hq : q p = true) :
    (firstIdxWhere q ps).isSome = true := by
  induction ps with
  | nil => simp at hmem
  | cons r rest ih =>
    by_cases hr : q r
    · simp [firstIdxWhere, hr]
    · rcases List.mem_cons.mp hmem with heq | hmem'
      · subst heq
        exact absurd hq (by simp [hr])
      · have := ih hmem'
        cases hrec : firstIdxWhere q rest with
        | none => rw [hrec] at this; simp at this
        | some n => simp [firstIdxWhere, hr, hrec]

theorem updateAt_length (ps : List WooWooProject) (i : Nat) (f : WooWooProject → WooWooProject) :
    (updateAt ps i f).length = ps.length := by
  induction ps generalizing i with
  | nil => rfl
  | cons p rest ih =>
    cases i with
    | zero => simp [updateAt]
    | succ n => simp [updateAt, ih]

theorem updateAt_getElem?_self (ps : List WooWooProject) (i : Nat)
    (f : WooWooProject → WooWooProject) : (updateAt ps i f)[i]? = ps[i]?.map f := by
  induction ps generalizing i with
  | nil => simp [updateAt]
  | cons p rest ih =>
    cases i with
    | zero => simp [updateAt]
    | succ n => simpa [updateAt] using ih n

theorem updateAt_getElem?_ne (ps : List WooWooProject) {i j : Nat} (hne : j ≠ i)
    (f : WooWooProject → WooWooProject) : (updateAt ps i f)[j]? = ps[j]? := by
  induction ps generalizing i j with
  | nil => simp [updateAt]
  | cons p rest ih =>
    cases i with
    | zero =>
      cases j with
      | zero => exact absurd rfl hne
      | succ m => simp [updateAt]
    | succ n =>
      cases j with
      | zero => simp [updateAt]
      | succ m =>
        simp only [updateAt, List.getElem?_cons_succ]
        exact ih (fun hh => hne (by rw [hh]))

/-! ### The upward boundary walk (C4) -/

theorem mem_of_getElem?_some {α : Type} {l : List α} {i : Nat} {a : α}
    (h : l[i]? = some a) : a ∈ l := by
  obtain ⟨hlt, rfl⟩ := List.getElem?_eq_some_iff.mp h
  exact List.getElem_mem hlt

theorem ne_dropLast_of_ne_nil {l : Path} (h : l ≠ []) : l ≠ l.dropLast := by
  intro heq
  have h0 : l.length ≠ 0 := by simpa using h
  have : l.length = l.length - 1 := by
    conv_lhs => rw [heq]
    exact List.length_dropLast l
  omega

theorem findProjectFolderRev_eq_find (fs : FileSystem) (workspaceRootPath : Path) :
    ∀ r : List String,
      findProjectFolderRev fs workspaceRootPath.dropLast r =
        (ancestorWalk workspaceRootPath r.reverse).find?
          (fun dir => fs.existsB (dir ++ ["Woofile"])) := by
  intro r
  induction r with
  | nil =>
    rw [findProjectFolderRev, ancestorWalk]
    simp
  | cons c rest ih =>
    rw [findProjectFolderRev, ancestorWalk]
    have hne : (c :: rest).reverse ≠ [] := by simp
    have hself : (c :: rest).reverse ≠ ((c :: rest).reverse).dropLast :=
      ne_dropLast_of_ne_nil hne
    by_cases hws : (c :: rest).reverse = workspaceRootPath.dropLast
    · rw [if_pos hws, dif_neg (by simp [hws])]
      simp
    · rw [if_neg hws, dif_pos ⟨hws, hself⟩, List.find?_cons]
      have hdrop : ((c :: rest).reverse).dropLast = rest.reverse := by
        simp [List.reverse_cons]
      cases hmark : fs.existsB ((c :: rest).reverse ++ ["Woofile"]) <;>
        simp [hmark, hdrop, ih]

/-! ### Tracing the source-to-source rename step -/

theorem firstDoc_eq_some_exists {k : Path} {ps : List WooWooProject} {d : DocId}
    (h : firstDoc k ps = some d) : ∃ p ∈ ps, p.getDocument k = some d := by
  induction ps with
  | nil => simp [firstDoc] at h
  | cons p rest ih =>
    cases hp : p.getDocument k with
    | some d0 =>
      simp only [firstDoc, hp] at h
      exact ⟨p, List.mem_cons_self p rest, hp.trans h⟩
    | none =>
      simp only [firstDoc, hp] at h
      obtain ⟨p', hmem, hp'⟩ := ih h
      exact ⟨p', List.mem_cons_of_mem p hmem, hp'⟩

theorem entryConsistent_elim {h : Heap} {e : Path × DocId}
    (hc : entryConsistentB h e = true) :
    ∃ doc, heapLookup e.2 h = some doc ∧ doc.documentPath = e.1 := by
  simp only [entryConsistentB, Bool.and_eq_true, Option.isSome_iff_exists,
    decide_eq_true_eq] at hc
  obtain ⟨⟨doc, hdoc⟩, hpath⟩ := hc
  refine ⟨doc, hdoc, ?_⟩
  simpa [heapPathOf, hdoc] using hpath

theorem pathsConsistent_entry {s : AnalyzerState} (hc : pathsConsistentB s = true)
    {p : WooWooProject} (hp : p ∈ s.projects) {e : Path × DocId} (he : e ∈ p.documents) :
    ∃ doc, heapLookup e.2 s.docHeap = some doc ∧ doc.documentPath = e.1 := by
  simp only [pathsConsistentB, List.all_eq_true] at hc
  exact entryConsistent_elim (hc p hp e he)

theorem tracked_doc_live {s : AnalyzerState} {A : Path} {d : DocId}
    (hc : pathsConsistentB s = true) (htr : s.getDocument A = some d) :
    ∃ doc, heapLookup d s.docHeap = some doc ∧ doc.documentPath = A := by
  obtain ⟨p, hmem, hp⟩ := firstDoc_eq_some_exists htr
  exact pathsConsistent_entry hc hmem (mem_of_assocLookup_eq_some hp)

theorem heapPathOf_of_tracked {s : AnalyzerState} {A : Path} {d : DocId}
    (hc : pathsConsistentB s = true) (htr : s.getDocument A = some d) :
    heapPathOf s.docHeap d = A := by
  obtain ⟨doc, hdoc, hpath⟩ := tracked_doc_live hc htr
  simp [heapPathOf, hdoc, hpath]

theorem find_byPath_eq_assocLookup {h : Heap} {A : Path} {l : List (Path × DocId)}
    (hc : ∀ e ∈ l, entryConsistentB h e = true) :
    (l.find? (fun e => decide (heapPathOf h e.2 = A))).map (fun e => e.2) =
      assocLookup A l := by
  induction l with
  | nil => rfl
  | cons e r ih =>
    obtain ⟨doc, hdoc, hpath⟩ := entryConsistent_elim (hc e (List.mem_cons_self e r))
    have hkey : heapPathOf h e.2 = e.1 := by simp [heapPathOf, hdoc, hpath]
    by_cases hA : e.1 = A
    · have hpred : decide (heapPathOf h e.2 = A) = true := by simp [hkey, hA]
      simp [List.find?, hpred, assocLookup, hA]
    · have hpred : decide (heapPathOf h e.2 = A) = false := by simp [hkey, hA]
      simp only [List.find?, hpred]
      rw [ih (fun x hx => hc x (List.mem_cons_of_mem e hx))]
      simp [assocLookup, hA]

theorem findByDocPath_eq_getDocument {h : Heap} {p : WooWooProject} {A : Path}
    (hc : ∀ e ∈ p.documents, entryConsistentB h e = true) :
    p.findByDocPath h A = p.getDocument A :=
  find_byPath_eq_assocLookup hc

theorem firstIdxWhere_congr {q1 q2 : WooWooProject → Bool} {ps : List WooWooProject}
    (h : ∀ p ∈ ps, q1 p = q2 p) : firstIdxWhere q1 ps = firstIdxWhere q2 ps := by
  induction ps with
  | nil => rfl
  | cons p rest ih =>
    have hp : q1 p = q2 p := h p (List.mem_cons_self p rest)
    have hrest := ih (fun x hx => h x (List.mem_cons_of_mem p hx))
    simp [firstIdxWhere, hp, hrest]

theorem firstDoc_eq_bind_firstIdxWhere (k : Path) (ps : List WooWooProject) :
    firstDoc k ps = (firstIdxWhere (fun p => (p.getDocument k).isSome) ps).bind
      (fun i => ps[i]?.bind (fun p => p.getDocument k)) := by
  induction ps with
  | nil => rfl
  | cons p rest ih =>
    cases hp : p.getDocument k with
    | some d => simp [firstDoc, firstIdxWhere, hp]
    | none =>
      simp only [firstDoc, firstIdxWhere, hp, Option.isSome_none, Bool.false_eq_true,
        if_false, if_neg]
      rw [ih]
      cases hrec : firstIdxWhere (fun p => (p.getDocument k).isSome) rest <;> simp [hrec]

/-- The source-to-source rename step, traced: under path-key consistency,
with the document tracked at the old path and the null project present, the
pair is processed exactly as the code does — the shared handle found is the
tracked document itself, its stored path becomes the new path, the old
project erases the entry at the updated (new) path, and the destination
inserts the handle at the new path. -/
theorem renameOne_source_spec (fs : FileSystem) (s : AnalyzerState) (A B : Path) (d : DocId)
    (hA : endsWithWoo A = true) (hB : endsWithWoo B = true)
    (hcons : pathsConsistentB s = true)
    (htr : s.getDocument A = some d)
    (horph : (firstIdxWhere (fun p => decide (p.projectFolderPath = none))
      s.projects).isSome = true) :
    ∃ oi ni w,
      firstIdxWhere (fun p => (p.getDocument A).isSome) s.projects = some oi ∧
      s.projects[ni]? = some w ∧
      ((firstIdxWhere (fun p => decide (p.projectFolderPath =
          findProjectFolder fs s.workspaceRootPath B)) s.projects = some ni ∧
        w.projectFolderPath = findProjectFolder fs s.workspaceRootPath B) ∨
       (firstIdxWhere (fun p => decide (p.projectFolderPath =
          findProjectFolder fs s.workspaceRootPath B)) s.projects = none ∧
        firstIdxWhere (fun p => decide (p.projectFolderPath = none)) s.projects = some ni ∧
        w.projectFolderPath = none)) ∧
      (renameOne fs s A B).1 =
        { s with
          docHeap := heapSetPath d B s.docHeap,
          projects :=
            updateAt
              (updateAt s.projects oi (fun p => p.deleteDoc (heapSetPath d B s.docHeap) d))
              ni
              (fun p => p.addDocument (heapSetPath d B s.docHeap) d) } := by
  have hpath : heapPathOf s.docHeap d = A := heapPathOf_of_tracked hcons htr
  have hconsAll : ∀ p ∈ s.projects, ∀ e ∈ p.documents, entryConsistentB s.docHeap e = true := by
    simpa only [pathsConsistentB, List.all_eq_true] using hcons
  have hpredeq : ∀ p ∈ s.projects,
      ((p.findByDocPath s.docHeap (heapPathOf s.docHeap d)).isSome) =
        ((p.getDocument A).isSome) := by
    intro p hp
    rw [hpath, findByDocPath_eq_getDocument (hconsAll p hp)]
  obtain ⟨p0, hmem0, hp0⟩ := firstDoc_eq_some_exists htr
  have hany : (firstIdxWhere (fun p => (p.getDocument A).isSome) s.projects).isSome = true :=
    firstIdxWhere_isSome_of_mem hmem0 (by simp [hp0])
  obtain ⟨oi, hoi⟩ : ∃ oi,
      firstIdxWhere (fun p => (p.getDocument A).isSome) s.projects = some oi := by
    cases hcase : firstIdxWhere (fun p => (p.getDocument A).isSome) s.projects with
    | none => rw [hcase] at hany; simp at hany
    | some i => exact ⟨i, rfl⟩
  have hoi' : firstIdxWhere
      (fun p => (p.findByDocPath s.docHeap (heapPathOf s.docHeap d)).isSome) s.projects =
      some oi := (firstIdxWhere_congr hpredeq).trans hoi
  obtain ⟨q, hq, hqpred, _⟩ := firstIdxWhere_eq_some hoi
  have hqdoc : q.getDocument A = some d := by
    have htr' : firstDoc A s.projects = some d := htr
    have hfd := firstDoc_eq_bind_firstIdxWhere A s.projects
    rw [htr', hoi, Option.some_bind, hq, Option.some_bind] at hfd
    exact hfd.symm
  have hshared : (s.projects[oi]?).bind
      (fun p => p.findByDocPath s.docHeap (heapPathOf s.docHeap d)) = some d := by
    rw [hq, Option.some_bind, hpath,
      findByDocPath_eq_getDocument (hconsAll q (mem_of_getElem?_some hq))]
    exact hqdoc
  cases hmatch : firstIdxWhere
      (fun p => decide (p.projectFolderPath = findProjectFolder fs s.workspaceRootPath B))
      s.projects with
  | some i =>
    obtain ⟨w, hw, hwpred, _⟩ := firstIdxWhere_eq_some hmatch
    refine ⟨oi, i, w, hoi, hw, Or.inl ⟨rfl, of_decide_eq_true hwpred⟩, ?_⟩
    simp only [renameOne, uriToPathString, hA, hB, Bool.and_self, if_true, htr, hoi',
      hshared, hmatch]
  | none =>
    cases hmatch2 : firstIdxWhere (fun p => decide (p.projectFolderPath = none))
        s.projects with
    | none => rw [hmatch2] at horph; simp at horph
    | some i =>
      obtain ⟨w, hw, hwpred, _⟩ := firstIdxWhere_eq_some hmatch2
      refine ⟨oi, i, w, hoi, hw, Or.inr ⟨rfl, rfl, of_decide_eq_true hwpred⟩, ?_⟩
      simp only [renameOne, uriToPathString, hA, hB, Bool.and_self, if_true, htr, hoi',
        hshared, hmatch, hmatch2]

theorem renameFiles_single (fs : FileSystem) (s : AnalyzerState) (A B : Path) :
    (renameFiles fs s [(A, B)]).1 = (renameOne fs s A B).1 :=
  rfl

theorem entryConsistentB_heapSetSource (d : DocId) (t : String) (h : Heap)
    (e : Path × DocId) :
    entryConsistentB (heapSetSource d t h) e = entryConsistentB h e := by
  by_cases hd : e.2 = d
  · subst hd
    simp [entryConsistentB, heapLookup_heapSetSource_self, heapPathOf_heapSetSource]
  · simp [entryConsistentB, heapLookup_heapSetSource_ne hd, heapPathOf_heapSetSource]

theorem pathsConsistentB_mutateSource (s : AnalyzerState) (d : DocId) (t : String) :
    pathsConsistentB (mutateSource s d t) = pathsConsistentB s := by
  show (s.projects.all fun p =>
      p.documents.all (entryConsistentB (heapSetSource d t s.docHeap))) =
    (s.projects.all fun p => p.documents.all (entryConsistentB s.docHeap))
  congr 1
  funext p
  congr 1
  funext e
  exact entryConsistentB_heapSetSource d t s.docHeap e

theorem getDocument_addDocument_self (h : Heap) (p : WooWooProject) (sh : DocId) :
    (p.addDocument h sh).getDocument (heapPathOf h sh) = some sh := by
  show assocLookup (heapPathOf h sh) (mapInsert (heapPathOf h sh) sh p.documents) = some sh
  rw [assocLookup_mapInsert]
  simp

theorem getDocument_deleteDoc_none {h : Heap} {p : WooWooProject} {d : DocId}
    (hfresh : p.getDocument (heapPathOf h d) = none) :
    (p.deleteDoc h d).getDocument (heapPathOf h d) = none := by
  show assocLookup (heapPathOf h d) (eraseKeyFirst (heapPathOf h d) p.documents) = none
  rw [eraseKeyFirst_of_no_key ((assocLookup_eq_none_iff _ _).mp hfresh)]
  exact hfresh

/-- C3: renaming a tracked source file A to the source path B moves the
same document instance across the rename: the lookup at B afterwards
returns the very handle that was at A, and a text mutation made through
that handle before the rename is observable through the new lookup (the
shared heap cell now carries the new path and the mutated text).
Hypotheses: the state is path-key consistent (spec invariant I5), the
destination key is not yet tracked anywhere, and the null project exists
(spec invariant I3). -/
theorem rename_preserves_document_identity (fs : FileSystem) (s : AnalyzerState)
    (A B : Path) (d : DocId) (t : String)
    (hA : endsWithWoo A = true) (hB : endsWithWoo B = true)
    (hcons : pathsConsistentB s = true)
    (htr : s.getDocument A = some d)
    (hfresh : ∀ p ∈ s.projects, p.getDocument B = none)
    (horph : (firstIdxWhere (fun p => decide (p.projectFolderPath = none))
      s.projects).isSome = true) :
    (renameFiles fs (mutateSource s d t) [(A, B)]).1.getDocument B = some d ∧
    heapLookup d (renameFiles fs (mutateSource s d t) [(A, B)]).1.docHeap =
      some { documentPath := B, source := t } := by
  obtain ⟨doc, hdoc, hdocpath⟩ := tracked_doc_live hcons htr
  have hcons0 : pathsConsistentB (mutateSource s d t) = true := by
    rw [pathsConsistentB_mutateSource]
    exact hcons
  have htr0 : (mutateSource s d t).getDocument A = some d := htr
  have horph0 : (firstIdxWhere (fun p => decide (p.projectFolderPath = none))
      (mutateSource s d t).projects).isSome = true := horph
  obtain ⟨oi, ni, w, hoi, hw, hdisj, heq⟩ :=
    renameOne_source_spec fs (mutateSource s d t) A B d hA hB hcons0 htr0 horph0
  rw [renameFiles_single, heq]
  have hdoc1 : heapLookup d (heapSetPath d B (mutateSource s d t).docHeap) =
      some { documentPath := B, source := t } := by
    show heapLookup d (heapSetPath d B (heapSetSource d t s.docHeap)) = _
    rw [heapLookup_heapSetPath_self, heapLookup_heapSetSource_self, hdoc]
    rfl
  have hBpath : heapPathOf (heapSetPath d B (mutateSource s d t).docHeap) d = B := by
    show heapPathOf (heapSetPath d B (heapSetSource d t s.docHeap)) d = B
    have hdoc1' : heapLookup d (heapSetPath d B (heapSetSource d t s.docHeap)) =
        some { documentPath := B, source := t } := hdoc1
    simp [heapPathOf, hdoc1']
  refine ⟨?_, hdoc1⟩
  show firstDoc B
    (updateAt
      (updateAt (mutateSource s d t).projects oi
        (fun p => p.deleteDoc (heapSetPath d B (mutateSource s d t).docHeap) d))
      ni
      (fun p => p.addDocument (heapSetPath d B (mutateSource s d t).docHeap) d)) = some d
  obtain ⟨w1, hw1⟩ : ∃ w1,
      (updateAt (mutateSource s d t).projects oi
        (fun p => p.deleteDoc (heapSetPath d B (mutateSource s d t).docHeap) d))[ni]? =
        some w1 := by
    by_cases hcase : ni = oi
    · subst hcase
      rw [updateAt_getElem?_self, hw]
      exact ⟨_, rfl⟩
    · rw [updateAt_getElem?_ne _ hcase, hw]
      exact ⟨w, rfl⟩
  have hps2ni :
      (updateAt
        (updateAt (mutateSource s d t).projects oi
          (fun p => p.deleteDoc (heapSetPath d B (mutateSource s d t).docHeap) d))
        ni
        (fun p => p.addDocument (heapSetPath d B (mutateSource s d t).docHeap) d))[ni]? =
      some (w1.addDocument (heapSetPath d B (mutateSource s d t).docHeap) d) := by
    rw [updateAt_getElem?_self, hw1]
    rfl
  have hgetB :
      (w1.addDocument (heapSetPath d B (mutateSource s d t).docHeap) d).getDocument B =
        some d := by
    have hh := getDocument_addDocument_self (heapSetPath d B (mutateSource s d t).docHeap) w1 d
    rwa [hBpath] at hh
  have hnone : ∀ j, j < ni → ∀ p',
      (updateAt
        (updateAt (mutateSource s d t).projects oi
          (fun p => p.deleteDoc (heapSetPath d B (mutateSource s d t).docHeap) d))
        ni
        (fun p => p.addDocument (heapSetPath d B (mutateSource s d t).docHeap) d))[j]? =
        some p' → p'.getDocument B = none := by
    intro j hj p' hp'
    rw [updateAt_getElem?_ne _ (Nat.ne_of_lt hj)] at hp'
    by_cases hjoi : j = oi
    · subst hjoi
      rw [updateAt_getElem?_self] at hp'
      cases hpj : (mutateSource s d t).projects[j]? with
      | none => rw [hpj] at hp'; simp at hp'
      | some pj =>
        rw [hpj] at hp'
        have hp2 : p' = pj.deleteDoc (heapSetPath d B (mutateSource s d t).docHeap) d :=
          (Option.some.inj hp').symm
        subst hp2
        have hfr : pj.getDocument B = none := hfresh pj (mem_of_getElem?_some hpj)
        have hfr2 : pj.getDocument
            (heapPathOf (heapSetPath d B (mutateSource s d t).docHeap) d) = none := by
          rwa [hBpath]
        have hdel := getDocument_deleteDoc_none hfr2
        rwa [hBpath] at hdel
    · rw [updateAt_getElem?_ne _ hjoi] at hp'
      exact hfresh p' (mem_of_getElem?_some hp')
  exact firstDoc_eq_some_of_first hps2ni hgetB hnone

theorem updateAt_map_folder (ps : List WooWooProject) (i : Nat)
    (f : WooWooProject → WooWooProject)
    (hf : ∀ p, (f p).projectFolderPath = p.projectFolderPath) :
    (updateAt ps i f).map (fun p => p.projectFolderPath) =
      ps.map (fun p => p.projectFolderPath) := by
  induction ps generalizing i with
  | nil => rfl
  | cons p rest ih =>
    cases i with
    | zero => simp [updateAt, hf]
    | succ n => simp [updateAt, ih]

theorem renameOne_preserves_folders (fs : FileSystem) (s : AnalyzerState)
    (oldUri newUri : Path) :
    ((renameOne fs s oldUri newUri).1.projects).map (fun p => p.projectFolderPath) =
      s.projects.map (fun p => p.projectFolderPath) := by
  unfold renameOne
  dsimp only
  split
  · split
    · rfl
    · split
      · rfl
      · split
        · dsimp only
          rw [updateAt_map_folder, updateAt_map_folder]
          all_goals exact fun p => rfl
        · rfl
  · split
    · unfold analyzerDeleteDocument
      split
      · rfl
      · simp only [List.map_map]
        rfl
    · rfl

theorem renameFoldl_fst_indep (fs : FileSystem) (renames : List (Path × Path)) :
    ∀ (s : AnalyzerState) (l1 l2 : List (Path × Path)),
      (renames.foldl (renameStep fs) (s, l1)).1 =
        (renames.foldl (renameStep fs) (s, l2)).1 := by
  induction renames with
  | nil => intro s l1 l2; rfl
  | cons pr rest ih =>
    intro s l1 l2
    show (rest.foldl (renameStep fs) (renameStep fs (s, l1) pr)).1 =
      (rest.foldl (renameStep fs) (renameStep fs (s, l2) pr)).1
    exact ih (renameOne fs s pr.1 pr.2).1 (l1 ++ (renameOne fs s pr.1 pr.2).2)
      (l2 ++ (renameOne fs s pr.1 pr.2).2)

theorem renameFiles_preserves_folders (fs : FileSystem) (renames : List (Path × Path)) :
    ∀ s : AnalyzerState,
      ((renameFiles fs s renames).1.projects).map (fun p => p.projectFolderPath) =
        s.projects.map (fun p => p.projectFolderPath) := by
  induction renames with
  | nil => intro s; rfl
  | cons pr rest ih =>
    intro s
    have hsplit : (renameFiles fs s (pr :: rest)).1 =
        (renameFiles fs (renameOne fs s pr.1 pr.2).1 rest).1 := by
      show (rest.foldl (renameStep fs) (renameStep fs (s, []) pr)).1 =
        (rest.foldl (renameStep fs) ((renameOne fs s pr.1 pr.2).1, [])).1
      exact renameFoldl_fst_indep fs rest (renameOne fs s pr.1 pr.2).1
        ([] ++ (renameOne fs s pr.1 pr.2).2) []
    rw [hsplit, ih, renameOne_preserves_folders]

/-- C5: no project is ever created by renameFiles — the list of project
identities (folder paths) is invariant under every rename batch — and a
source-to-source rename of a tracked document whose destination path
resolves to a folder with no corresponding project (including the case
where findProjectFolder returns none) inserts the renamed document into the
already-existing null project.  Hypotheses: path-key consistency (spec
invariant I5) and the null project's existence (spec invariant I3). -/
theorem rename_falls_back_to_orphan (fs : FileSystem) (s : AnalyzerState)
    (A B : Path) (d : DocId)
    (hA : endsWithWoo A = true) (hB : endsWithWoo B = true)
    (hcons : pathsConsistentB s = true)
    (htr : s.getDocument A = some d)
    (hunclaimed : ∀ p ∈ s.projects,
      p.projectFolderPath ≠ findProjectFolder fs s.workspaceRootPath B ∨
      findProjectFolder fs s.workspaceRootPath B = none)
    (horph : (firstIdxWhere (fun p => decide (p.projectFolderPath = none))
      s.projects).isSome = true) :
    (∀ renames : List (Path × Path),
      ((renameFiles fs s renames).1.projects).map (fun p => p.projectFolderPath) =
        s.projects.map (fun p => p.projectFolderPath)) ∧
    ∃ p ∈ (renameFiles fs s [(A, B)]).1.projects,
      p.projectFolderPath = none ∧ p.getDocument B = some d := by
  obtain ⟨doc, hdoc, hdocpath⟩ := tracked_doc_live hcons htr
  obtain ⟨oi, ni, w, hoi, hw, hdisj, heq⟩ :=
    renameOne_source_spec fs s A B d hA hB hcons htr horph
  have hwnone : w.projectFolderPath = none := by
    rcases hdisj with ⟨hidx, hwf⟩ | ⟨hidx, hidx2, hwf⟩
    · rcases hunclaimed w (mem_of_getElem?_some hw) with hne | hnone2
      · exact absurd hwf hne
      · rw [hwf, hnone2]
    · exact hwf
  have hBpath : heapPathOf (heapSetPath d B s.docHeap) d = B := by
    have hl := heapLookup_heapSetPath_self d B s.docHeap
    rw [hdoc] at hl
    simp [heapPathOf, hl]
  refine ⟨fun renames => renameFiles_preserves_folders fs renames s, ?_⟩
  rw [renameFiles_single, heq]
  obtain ⟨w1, hw1, hw1f⟩ : ∃ w1,
      (updateAt s.projects oi
        (fun p => p.deleteDoc (heapSetPath d B s.docHeap) d))[ni]? = some w1 ∧
      w1.projectFolderPath = w.projectFolderPath := by
    by_cases hcase : ni = oi
    · subst hcase
      rw [updateAt_getElem?_self, hw]
      exact ⟨_, rfl, rfl⟩
    · rw [updateAt_getElem?_ne _ hcase, hw]
      exact ⟨w, rfl, rfl⟩
  have hps2 :
      (updateAt
        (updateAt s.projects oi (fun p => p.deleteDoc (heapSetPath d B s.docHeap) d))
        ni
        (fun p => p.addDocument (heapSetPath d B s.docHeap) d))[ni]? =
      some (w1.addDocument (heapSetPath d B s.docHeap) d) := by
    rw [updateAt_getElem?_self, hw1]
    rfl
  refine ⟨w1.addDocument (heapSetPath d B s.docHeap) d, mem_of_getElem?_some hps2, ?_, ?_⟩
  · show w1.projectFolderPath = none
    rw [hw1f, hwnone]
  · have hh := getDocument_addDocument_self (heapSetPath d B s.docHeap) w1 d
    rwa [hBpath] at hh

/-! ### Load-time membership (C2) -/

theorem projLoadDocuments_lookup (L : List Path) :
    ∀ (docs : List (Path × DocId)) (h : Heap) (nid : DocId) (k : Path),
      (assocLookup k (projLoadDocuments docs h nid L).1).isSome =
        (decide (k ∈ L) || (assocLookup k docs).isSome) := by
  induction L with
  | nil => intro docs h nid k; simp [projLoadDocuments]
  | cons f rest ih =>
    intro docs h nid k
    show (assocLookup k (projLoadDocuments (mapInsert f nid docs) _ _ rest).1).isSome = _
    rw [ih]
    by_cases hk : k = f
    · simp [hk, assocLookup_mapInsert]
    · simp [assocLookup_mapInsert, hk]

theorem mkWooWooProject_lookup (fs : FileSystem) (a : Path) (h : Heap) (nid : DocId)
    (k : Path) :
    ((mkWooWooProject fs a h nid).1.getDocument k).isSome =
      decide (k ∈ (recursiveFiles fs a).filter hasWooExtension) := by
  show (assocLookup k
    (projLoadDocuments [] h nid ((recursiveFiles fs a).filter hasWooExtension)).1).isSome = _
  rw [projLoadDocuments_lookup]
  simp [assocLookup]

theorem loadFolderProjects_length (fs : FileSystem) (folders : List Path) :
    ∀ (h : Heap) (nid : DocId),
      (loadFolderProjects fs h nid folders).1.length = folders.length := by
  induction folders with
  | nil => intro h nid; rfl
  | cons a rest ih =>
    intro h nid
    show ((mkWooWooProject fs a h nid).1 :: (loadFolderProjects fs _ _ rest).1).length = _
    simp [ih]

theorem loadFolderProjects_get (fs : FileSystem) (folders : List Path) :
    ∀ (h : Heap) (nid : DocId) (i : Nat) (a : Path), folders[i]? = some a →
      ∃ p : WooWooProject, (loadFolderProjects fs h nid folders).1[i]? = some p ∧
        p.projectFolderPath = some a ∧
        ∀ k, (p.getDocument k).isSome =
          decide (k ∈ (recursiveFiles fs a).filter hasWooExtension) := by
  induction folders with
  | nil => intro h nid i a ha; simp at ha
  | cons a0 rest ih =>
    intro h nid i a ha
    cases i with
    | zero =>
      simp only [List.getElem?_cons_zero] at ha
      have haa : a0 = a := by simpa using ha
      subst haa
      refine ⟨(mkWooWooProject fs a0 h nid).1, ?_, rfl,
        fun k => mkWooWooProject_lookup fs a0 h nid k⟩
      show ((mkWooWooProject fs a0 h nid).1 :: (loadFolderProjects fs _ _ rest).1)[0]? = _
      simp
    | succ n =>
      simp only [List.getElem?_cons_succ] at ha
      obtain ⟨p, hp, hfold, hchar⟩ := ih (mkWooWooProject fs a0 h nid).2.1
        (mkWooWooProject fs a0 h nid).2.2 n a ha
      refine ⟨p, ?_, hfold, hchar⟩
      show ((mkWooWooProject fs a0 h nid).1 :: (loadFolderProjects fs _ _ rest).1)[n + 1]? = _
      simpa using hp

theorem loadOrphanDocs_folder (fps : List WooWooProject) (wooFiles : List Path) :
    ∀ (orphan : WooWooProject) (h : Heap) (nid : DocId),
      (loadOrphanDocs fps orphan h nid wooFiles).1.projectFolderPath =
        orphan.projectFolderPath := by
  induction wooFiles with
  | nil => intro orphan h nid; rfl
  | cons f rest ih =>
    intro orphan h nid
    unfold loadOrphanDocs
    by_cases hcl : (fps ++ [orphan]).any (fun p => (p.getDocument f).isSome) = true
    · rw [if_pos hcl]
      exact ih orphan h nid
    · rw [if_neg hcl]
      exact ih _ _ _

theorem loadOrphanDocs_lookup (fps : List WooWooProject) (wooFiles : List Path) :
    ∀ (orphan : WooWooProject) (h : Heap) (nid : DocId) (k : Path),
      ((loadOrphanDocs fps orphan h nid wooFiles).1.getDocument k).isSome =
        ((orphan.getDocument k).isSome ||
          (decide (k ∈ wooFiles) &&
            !(fps.any (fun p => (p.getDocument k).isSome)))) := by
  induction wooFiles with
  | nil => intro orphan h nid k; simp [loadOrphanDocs]
  | cons f rest ih =>
    intro orphan h nid k
    show ((if (fps ++ [orphan]).any (fun p => (p.getDocument f).isSome) then
        loadOrphanDocs fps orphan h nid rest
      else loadOrphanDocs fps (projLoadDocument orphan h nid f).1
        (projLoadDocument orphan h nid f).2.1
        (projLoadDocument orphan h nid f).2.2 rest).1.getDocument k).isSome = _
    by_cases hcl : (fps ++ [orphan]).any (fun p => (p.getDocument f).isSome) = true
    · rw [if_pos hcl, ih]
      by_cases hk : k = f
      · subst hk
        simp only [List.any_append, List.any_cons, List.any_nil, Bool.or_false,
          Bool.or_eq_true] at hcl
        by_cases hfps : fps.any (fun p => (p.getDocument k).isSome) = true
        · simp [hfps]
        · have horp : (orphan.getDocument k).isSome = true := by
            rcases hcl with hl | hr
            · exact absurd hl hfps
            · exact hr
          simp [horp]
      · simp [hk]
    · rw [if_neg hcl, ih]
      have hins : (((projLoadDocument orphan h nid f).1).getDocument k).isSome =
          (decide (k = f) || (orphan.getDocument k).isSome) := by
        show (assocLookup k (mapInsert f nid orphan.documents)).isSome = _
        rw [assocLookup_mapInsert]
        by_cases hk : k = f <;> simp [hk, WooWooProject.getDocument]
      rw [hins]
      by_cases hk : k = f
      · subst hk
        simp only [List.any_append, List.any_cons, List.any_nil, Bool.or_false,
          Bool.or_eq_true, not_or] at hcl
        push_neg at hcl
        have hfps : fps.any (fun p => (p.getDocument k).isSome) = false :=
          Bool.eq_false_iff.mpr hcl.1
        simp [hfps]
      · simp [hk, WooWooProject.getDocument]

theorem filename_eq_getLast {g : Path} (h : g ≠ []) : filename g = g.getLast h := by
  unfold filename
  rw [List.getLastD_eq_getLast?, List.getLast?_eq_getLast g h]
  rfl

theorem dropLast_append_filename {g : Path} (h : g ≠ []) :
    g.dropLast ++ [filename g] = g := by
  rw [filename_eq_getLast h]
  exact List.dropLast_append_getLast h

theorem filename_concat (a : Path) (x : String) : filename (a ++ [x]) = x := by
  unfold filename
  simp [List.getLastD_concat]

theorem mem_loadFolders_iff (fs : FileSystem) (root : Path)
    (hunder : ∀ f ∈ fs.files, underDir root f = true) (a : Path) :
    (a ∈ ((recursiveFiles fs root).filter (fun f => filename f == "Woofile")).map
      List.dropLast) ↔ isMarkerDir fs a = true := by
  constructor
  · intro hmem
    obtain ⟨g, hg, hga⟩ := List.mem_map.mp hmem
    obtain ⟨hgrec, hgname⟩ := List.mem_filter.mp hg
    have hgfiles : g ∈ fs.files := (List.mem_filter.mp hgrec).1
    have hgname' : filename g = "Woofile" := by simpa using hgname
    have hgne : g ≠ [] := by
      intro hnil
      rw [hnil] at hgname'
      exact absurd hgname' (by decide)
    have hgdecomp : g = a ++ ["Woofile"] := by
      rw [← hga, ← hgname']
      exact (dropLast_append_filename hgne).symm
    rw [isMarkerDir, ← hgdecomp]
    simpa using hgfiles
  · intro hmark
    have hgfiles : (a ++ ["Woofile"]) ∈ fs.files := by simpa [isMarkerDir] using hmark
    have hgunder : underDir root (a ++ ["Woofile"]) = true := hunder _ hgfiles
    refine List.mem_map.mpr ⟨a ++ ["Woofile"], ?_, by simp [List.dropLast_concat]⟩
    refine List.mem_filter.mpr ⟨List.mem_filter.mpr ⟨hgfiles, hgunder⟩, ?_⟩
    simp [filename_concat]

theorem loadFolders_nodup (fs : FileSystem) (root : Path) (hnd : fs.files.Nodup) :
    (((recursiveFiles fs root).filter (fun f => filename f == "Woofile")).map
      List.dropLast).Nodup := by
  have h1 : ((recursiveFiles fs root).filter
      (fun f => filename f == "Woofile")).Nodup :=
    (hnd.filter _).filter _
  refine List.Nodup.map_on ?_ h1
  intro g1 h1mem g2 h2mem heq
  have hn1 : filename g1 = "Woofile" := by simpa using (List.mem_filter.mp h1mem).2
  have hn2 : filename g2 = "Woofile" := by simpa using (List.mem_filter.mp h2mem).2
  have hne1 : g1 ≠ [] := by
    intro hnil; rw [hnil] at hn1; exact absurd hn1 (by decide)
  have hne2 : g2 ≠ [] := by
    intro hnil; rw [hnil] at hn2; exact absurd hn2 (by decide)
  calc g1 = g1.dropLast ++ [filename g1] := (dropLast_append_filename hne1).symm
    _ = g2.dropLast ++ [filename g2] := by rw [heq, hn1, hn2]
    _ = g2 := dropLast_append_filename hne2

theorem underDir_of_lt_of_underDir {a b f : Path}
    (ha : underDir a f = true) (hb : underDir b f = true)
    (hlen : a.length < b.length) : underDir a b = true := by
  simp only [underDir, Bool.and_eq_true, decide_eq_true_eq] at ha hb ⊢
  refine ⟨hlen, ?_⟩
  rw [hb.2, List.take_take]
  rw [Nat.min_eq_left (Nat.le_of_lt hlen)]
  exact ha.2

theorem marker_ancestor_unique (fs : FileSystem)
    (hnonest : ∀ g1 ∈ fs.files, ∀ g2 ∈ fs.files,
      filename g1 = "Woofile" → filename g2 = "Woofile" → g1.dropLast ≠ g2.dropLast →
      underDir g1.dropLast g2.dropLast = false)
    {a b f : Path}
    (ha : isMarkerDir fs a = true) (hb : isMarkerDir fs b = true)
    (haf : underDir a f = true) (hbf : underDir b f = true) : a = b := by
  have hafiles : (a ++ ["Woofile"]) ∈ fs.files := by simpa [isMarkerDir] using ha
  have hbfiles : (b ++ ["Woofile"]) ∈ fs.files := by simpa [isMarkerDir] using hb
  by_contra hne
  have hkey : ∀ x y : Path, isMarkerDir fs x = true → isMarkerDir fs y = true →
      x ≠ y → underDir x y = false := by
    intro x y hx hy hxy
    have hxfiles : (x ++ ["Woofile"]) ∈ fs.files := by simpa [isMarkerDir] using hx
    have hyfiles : (y ++ ["Woofile"]) ∈ fs.files := by simpa [isMarkerDir] using hy
    have := hnonest (x ++ ["Woofile"]) hxfiles (y ++ ["Woofile"]) hyfiles
      (filename_concat x "Woofile") (filename_concat y "Woofile")
    simp only [List.dropLast_concat] at this
    exact this hxy
  rcases Nat.lt_or_ge a.length b.length with hlt | hge
  · have hunder := underDir_of_lt_of_underDir haf hbf hlt
    rw [hkey a b ha hb hne] at hunder
    exact Bool.false_ne_true hunder
  · rcases Nat.eq_or_lt_of_le hge with heq | hlt
    · have ha2 : a = f.take a.length := by
        simp only [underDir, Bool.and_eq_true, decide_eq_true_eq] at haf
        exact haf.2
      have hb2 : b = f.take b.length := by
        simp only [underDir, Bool.and_eq_true, decide_eq_true_eq] at hbf
        exact hbf.2
      exact absurd (by rw [ha2, hb2, heq]) hne
    · have hunder := underDir_of_lt_of_underDir hbf haf hlt
      rw [hkey b a hb ha (Ne.symm hne)] at hunder
      exact Bool.false_ne_true hunder

theorem mem_ancestorsRev_iff (r : List String) (a : Path) :
    a ∈ ancestorsRev r ↔ (a.length ≤ r.length ∧ a = r.reverse.take a.length) := by
  induction r with
  | nil =>
    simp only [ancestorsRev, List.mem_singleton, List.reverse_nil, List.take_nil]
    constructor
    · intro h; subst h; simp
    · intro ⟨h1, h2⟩; exact h2
  | cons c rest ih =>
    simp only [ancestorsRev, List.mem_cons, ih]
    constructor
    · rintro (rfl | ⟨h1, h2⟩)
      · refine ⟨by simp, ?_⟩
        rw [List.take_length]
      · refine ⟨Nat.le_succ_of_le h1, ?_⟩
        conv_lhs => rw [h2]
        rw [List.reverse_cons, List.take_append_of_le_length (by simpa using h1)]
    · intro hh
      obtain ⟨h1, h2⟩ := hh
      rcases Nat.eq_or_lt_of_le h1 with heq | hlt
      · left
        rw [h2, heq]
        rw [show (c :: rest).length = (c :: rest).reverse.length from
          (List.length_reverse _).symm]
        rw [List.take_length]
      · right
        have h1' : a.length ≤ rest.length := Nat.lt_succ_iff.mp hlt
        refine ⟨h1', ?_⟩
        conv_lhs => rw [h2]
        rw [List.reverse_cons, List.take_append_of_le_length (by simpa using h1')]

theorem mem_selfAndAncestors_dropLast_iff {f a : Path} (hf : f ≠ []) :
    a ∈ selfAndAncestors f.dropLast ↔ underDir a f = true := by
  rw [selfAndAncestors, mem_ancestorsRev_iff, List.reverse_reverse, List.length_reverse]
  have hlen : f.dropLast.length = f.length - 1 := List.length_dropLast f
  have hfpos : 0 < f.length := List.length_pos.mpr hf
  constructor
  · intro hh
    obtain ⟨h1, h2⟩ := hh
    rw [hlen] at h1
    have h1' : a.length < f.length := by omega
    simp only [underDir, Bool.and_eq_true, decide_eq_true_eq]
    refine ⟨h1', ?_⟩
    conv_lhs => rw [h2]
    rw [List.dropLast_eq_take, List.take_take]
    rw [Nat.min_eq_left (by omega)]
  · intro h
    simp only [underDir, Bool.and_eq_true, decide_eq_true_eq] at h
    have h1 : a.length ≤ f.dropLast.length := by omega
    refine ⟨h1, ?_⟩
    rw [List.dropLast_eq_take, List.take_take, Nat.min_eq_left (by omega)]
    exact h.2

theorem nearestMarkerAncestor_some {fs : FileSystem} {f a : Path} (hf : f ≠ [])
    (h : nearestMarkerAncestor fs f = some a) :
    isMarkerDir fs a = true ∧ underDir a f = true := by
  refine ⟨List.find?_some h, ?_⟩
  have hmem := List.mem_of_find?_eq_some h
  exact (mem_selfAndAncestors_dropLast_iff hf).mp hmem

theorem nearestMarkerAncestor_none {fs : FileSystem} {f : Path} (hf : f ≠ [])
    (h : nearestMarkerAncestor fs f = none) :
    ∀ a, underDir a f = true → isMarkerDir fs a = false := by
  intro a hu
  have hmem := (mem_selfAndAncestors_dropLast_iff hf).mpr hu
  have := List.find?_eq_none.mp h a hmem
  exact Bool.eq_false_iff.mpr this

theorem loadWorkspace_ok_projects {fs : FileSystem} {root : Path} {s : AnalyzerState}
    {folders : List Path}
    (hok : loadWorkspace fs root = Except.ok s)
    (hfolders : findProjectFolders fs root = Except.ok folders) :
    s.projects = (loadFolderProjects fs [] 0 folders).1 ++
      [(loadOrphanDocs (loadFolderProjects fs [] 0 folders).1
        { projectFolderPath := none, woofile := none, documents := [] }
        (loadFolderProjects fs [] 0 folders).2.1
        (loadFolderProjects fs [] 0 folders).2.2
        (findAllWooFiles fs root)).1] := by
  unfold loadWorkspace uriToPathString at hok
  dsimp only at hok
  rw [hfolders] at hok
  have hs := Except.ok.inj hok
  rw [← hs]

/-- C2 amended: after a successful loadWorkspace on an existing directory
tree whose files all lie below the root and whose marker folders are not
nested one below another, every discovered ".woo" file is present in
exactly one project's map, and that project is the one whose folder is the
file's unique (hence nearest) marker-bearing ancestor directory, or the
null project when no ancestor carries a marker. -/
theorem load_assigns_unique_owner (fs : FileSystem) (root : Path) (s : AnalyzerState)
    (hok : loadWorkspace fs root = Except.ok s)
    (hnd : fs.files.Nodup)
    (hunder : ∀ f ∈ fs.files, underDir root f = true)
    (hnonest : ∀ g1 ∈ fs.files, ∀ g2 ∈ fs.files,
      filename g1 = "Woofile" → filename g2 = "Woofile" → g1.dropLast ≠ g2.dropLast →
      underDir g1.dropLast g2.dropLast = false) :
    ∀ f ∈ findAllWooFiles fs root,
      ∃ (i : Nat) (p : WooWooProject), s.projects[i]? = some p ∧
        (p.getDocument f).isSome = true ∧
        p.projectFolderPath = nearestMarkerAncestor fs f ∧
        ∀ (j : Nat) (q : WooWooProject), s.projects[j]? = some q →
          (q.getDocument f).isSome = true → j = i := by
  intro f hf
  have hdir : fs.isDirB root = true := by
    cases hd : fs.isDirB root with
    | true => rfl
    | false =>
      exfalso
      unfold loadWorkspace uriToPathString findProjectFolders recursiveIter at hok
      dsimp only at hok
      rw [hd] at hok
      simp [Except.map] at hok
  have hfolders : findProjectFolders fs root = Except.ok
      (((recursiveFiles fs root).filter (fun f => filename f == "Woofile")).map
        List.dropLast) := by
    unfold findProjectFolders recursiveIter
    rw [hdir]
    rfl
  set folders := ((recursiveFiles fs root).filter (fun f => filename f == "Woofile")).map
    List.dropLast with hfoldersdef
  set FP := (loadFolderProjects fs [] 0 folders).1 with hFPdef
  set orph := (loadOrphanDocs FP
    { projectFolderPath := none, woofile := none, documents := [] }
    (loadFolderProjects fs [] 0 folders).2.1
    (loadFolderProjects fs [] 0 folders).2.2
    (findAllWooFiles fs root)).1 with horphdef
  have hsproj : s.projects = FP ++ [orph] := loadWorkspace_ok_projects hok hfolders
  -- the scanned woo files
  have hwooFiles : findAllWooFiles fs root = (recursiveFiles fs root).filter hasWooExtension := by
    unfold findAllWooFiles
    rw [if_pos (by simp [FileSystem.existsB, hdir])]
  have hffacts : f ∈ fs.files ∧ underDir root f = true ∧ hasWooExtension f = true := by
    rw [hwooFiles] at hf
    obtain ⟨hrec, hwoo⟩ := List.mem_filter.mp hf
    obtain ⟨hfile, hu⟩ := List.mem_filter.mp hrec
    exact ⟨hfile, hu, hwoo⟩
  have hfne : f ≠ [] := by
    intro hnil
    have hu := hffacts.2.1
    rw [hnil] at hu
    simp [underDir] at hu
  have hFPlen : FP.length = folders.length := loadFolderProjects_length fs folders [] 0
  -- characterization of the folder projects by index
  have hFPinv : ∀ (j : Nat) (q : WooWooProject), FP[j]? = some q →
      ∃ b, folders[j]? = some b ∧ q.projectFolderPath = some b ∧
        ∀ k, (q.getDocument k).isSome =
          decide (k ∈ (recursiveFiles fs b).filter hasWooExtension) := by
    intro j q hq
    have hjlt : j < FP.length := (List.getElem?_eq_some_iff.mp hq).1
    have hjlt2 : j < folders.length := hFPlen ▸ hjlt
    have hjb : folders[j]? = some folders[j] := List.getElem?_eq_getElem hjlt2
    obtain ⟨p, hpj, hpfold, hpchar⟩ := loadFolderProjects_get fs folders [] 0 j folders[j] hjb
    have hpq : p = q := by
      rw [hq] at hpj
      exact (Option.some.inj hpj).symm
    subst hpq
    exact ⟨folders[j], hjb, hpfold, hpchar⟩
  -- the orphan project's characterization
  have horphFolder : orph.projectFolderPath = none :=
    loadOrphanDocs_folder FP (findAllWooFiles fs root) _ _ _
  have horphLookup : ∀ k, (orph.getDocument k).isSome =
      (decide (k ∈ findAllWooFiles fs root) &&
        !(FP.any (fun p => (p.getDocument k).isSome))) := by
    intro k
    have hh := loadOrphanDocs_lookup FP (findAllWooFiles fs root)
      { projectFolderPath := none, woofile := none, documents := [] }
      (loadFolderProjects fs [] 0 folders).2.1
      (loadFolderProjects fs [] 0 folders).2.2 k
    rw [← horphdef] at hh
    simpa [WooWooProject.getDocument, assocLookup] using hh
  -- indexing in the combined project list
  have hidxFP : ∀ j, j < FP.length → s.projects[j]? = FP[j]? := by
    intro j hj
    rw [hsproj, List.getElem?_append]
    simp [hj]
  have hidxOrph : s.projects[FP.length]? = some orph := by
    rw [hsproj, List.getElem?_append_right (Nat.le_refl _)]
    simp
  have hsplitIdx : ∀ (j : Nat) (q : WooWooProject), s.projects[j]? = some q →
      (j < FP.length ∧ FP[j]? = some q) ∨ (j = FP.length ∧ q = orph) := by
    intro j q hjq
    rcases Nat.lt_or_ge j FP.length with hlt | hge
    · left
      refine ⟨hlt, ?_⟩
      rw [← hidxFP j hlt]
      exact hjq
    · right
      rw [hsproj, List.getElem?_append_right hge] at hjq
      have hj1 : j - FP.length < 1 := by
        by_contra hcon
        push_neg at hcon
        rw [List.getElem?_eq_none_iff.mpr (by simpa using hcon)] at hjq
        exact Option.noConfusion hjq
      have hjeq : j = FP.length := by omega
      subst hjeq
      simp only [Nat.sub_self, List.getElem?_cons_zero] at hjq
      exact ⟨rfl, (Option.some.inj hjq).symm⟩
  cases hnma : nearestMarkerAncestor fs f with
  | some a =>
    obtain ⟨hamark, hauf⟩ := nearestMarkerAncestor_some hfne hnma
    have hamem : a ∈ folders := (mem_loadFolders_iff fs root hunder a).mpr hamark
    obtain ⟨i0, hi0a⟩ := List.mem_iff_getElem?.mp hamem
    obtain ⟨p, hpFP, hpfold, hpchar⟩ := loadFolderProjects_get fs folders [] 0 i0 a hi0a
    have hplookup : (p.getDocument f).isSome = true := by
      rw [hpchar f]
      refine decide_eq_true (List.mem_filter.mpr ⟨List.mem_filter.mpr ⟨hffacts.1, hauf⟩,
        hffacts.2.2⟩)
    have hi0lt : i0 < FP.length := (List.getElem?_eq_some_iff.mp hpFP).1
    refine ⟨i0, p, ?_, hplookup, ?_, ?_⟩
    · rw [hidxFP i0 hi0lt]
      exact hpFP
    · rw [hpfold]
    · intro j q hjq hqlook
      rcases hsplitIdx j q hjq with ⟨hjlt, hjFP⟩ | ⟨hjeq, hqorph⟩
      · obtain ⟨b, hjb, hqfold, hqchar⟩ := hFPinv j q hjFP
        have hbmem : b ∈ folders := by
          exact mem_of_getElem?_some hjb
        have hbmark : isMarkerDir fs b = true := (mem_loadFolders_iff fs root hunder b).mp hbmem
        have hbuf : underDir b f = true := by
          rw [hqchar f] at hqlook
          have hmem := of_decide_eq_true hqlook
          exact (List.mem_filter.mp (List.mem_filter.mp hmem).1).2
        have hba : b = a := marker_ancestor_unique fs hnonest hbmark hamark hbuf hauf
        subst hba
        -- folders is nodup, so the index of b is unique
        have hfnodup : folders.Nodup := loadFolders_nodup fs root hnd
        obtain ⟨hjlt2, hjget⟩ := List.getElem?_eq_some_iff.mp hjb
        obtain ⟨hilt2, higet⟩ := List.getElem?_eq_some_iff.mp hi0a
        exact (List.Nodup.getElem_inj_iff hfnodup).mp (hjget.trans higet.symm)
      · subst hqorph
        exfalso
        rw [horphLookup f] at hqlook
        have hany : FP.any (fun p => (p.getDocument f).isSome) = true :=
          List.any_eq_true.mpr ⟨p, mem_of_getElem?_some hpFP, hplookup⟩
        rw [hany] at hqlook
        simp at hqlook
  | none =>
    have hnomark := nearestMarkerAncestor_none hfne hnma
    have hFPnone : ∀ (j : Nat) (q : WooWooProject), FP[j]? = some q →
        (q.getDocument f).isSome = false := by
      intro j q hq
      obtain ⟨b, hjb, hqfold, hqchar⟩ := hFPinv j q hq
      rw [hqchar f]
      have hbmark : isMarkerDir fs b = true :=
        (mem_loadFolders_iff fs root hunder b).mp (mem_of_getElem?_some hjb)
      by_cases hmem : f ∈ (recursiveFiles fs b).filter hasWooExtension
      · exfalso
        have hbuf : underDir b f = true :=
          (List.mem_filter.mp (List.mem_filter.mp hmem).1).2
        rw [hnomark b hbuf] at hbmark
        exact Bool.false_ne_true hbmark
      · simp [hmem]
    have hanyfalse : FP.any (fun p => (p.getDocument f).isSome) = false := by
      rw [Bool.eq_false_iff]
      intro hany
      obtain ⟨p, hpmem, hplook⟩ := List.any_eq_true.mp hany
      obtain ⟨j, hj⟩ := List.mem_iff_getElem?.mp hpmem
      rw [hFPnone j p hj] at hplook
      exact Bool.false_ne_true hplook
    have horphlook : (orph.getDocument f).isSome = true := by
      rw [horphLookup f, hanyfalse]
      simp [hf]
    refine ⟨FP.length, orph, hidxOrph, horphlook, ?_, ?_⟩
    · rw [horphFolder]
    · intro j q hjq hqlook
      rcases hsplitIdx j q hjq with ⟨hjlt, hjFP⟩ | ⟨hjeq, hqorph⟩
      · rw [hFPnone j q hjFP] at hqlook
        exact absurd hqlook (by simp)
      · exact hjeq

/-! ### Concrete workspaces used as witnesses and counterexamples -/

/-- A workspace with one unmarked ".woo" file. -/
def fsSolo : FileSystem :=
  { files := [["w", "a.woo"]], dirs := [["w"]], markerYaml := [] }

/-- The analyzer state after loading fsSolo. -/
def stSolo : AnalyzerState :=
  match loadWorkspace fsSolo ["w"] with
  | .ok s => s
  | .error _ => { workspaceRootPath := [], projects := [], docHeap := [], nextId := 0 }

/-- The spec's own scenario: root w with w/projA/Woofile, w/projA/doc1.woo
and the unmarked w/doc2.woo. -/
def fsSpec : FileSystem :=
  { files := [["w", "projA", "Woofile"], ["w", "projA", "doc1.woo"], ["w", "doc2.woo"]],
    dirs := [["w"], ["w", "projA"]], markerYaml := [] }

/-- The analyzer state after loading fsSpec. -/
def stSpec : AnalyzerState :=
  match loadWorkspace fsSpec ["w"] with
  | .ok s => s
  | .error _ => { workspaceRootPath := [], projects := [], docHeap := [], nextId := 0 }

/-- A workspace with nested marker folders w/p and w/p/q and one ".woo" file
below both. -/
def fsNested : FileSystem :=
  { files := [["w", "p", "Woofile"], ["w", "p", "q", "Woofile"], ["w", "p", "q", "a.woo"]],
    dirs := [["w"], ["w", "p"], ["w", "p", "q"]], markerYaml := [] }

/-- The analyzer state after loading fsNested. -/
def stNested : AnalyzerState :=
  match loadWorkspace fsNested ["w"] with
  | .ok s => s
  | .error _ => { workspaceRootPath := [], projects := [], docHeap := [], nextId := 0 }

/-- An empty world: the root directory given to loadWorkspace does not
exist. -/
def fsEmpty : FileSystem :=
  { files := [], dirs := [], markerYaml := [] }

/-- A project folder whose marker file exists but holds malformed YAML. -/
def fsBadMarker : FileSystem :=
  { files := [["w", "p", "Woofile"]], dirs := [["w"], ["w", "p"]],
    markerYaml := [(["w", "p", "Woofile"], Except.error "parse error")] }

/-! ### Claim theorems -/

/-- C4: findProjectFolder starts at the path's parent directory, walks
upward one level at a time, returns the first visited ancestor containing
the marker file, and returns none when the walk reaches the workspace
root's parent or a directory that is its own parent without finding a
marker — it equals the first marker hit on the spec-described walk chain. -/
theorem findProjectFolder_is_first_marker_on_walk (fs : FileSystem)
    (workspaceRootPath uri : Path) :
    findProjectFolder fs workspaceRootPath uri =
      (ancestorWalk workspaceRootPath (uriToPathString uri).dropLast).find?
        (fun dir => fs.existsB (dir ++ ["Woofile"])) := by
  have h := findProjectFolderRev_eq_find fs workspaceRootPath
    (uriToPathString uri).dropLast.reverse
  rw [List.reverse_reverse] at h
  exact h

/-- C7 (code bug witness): on a root that does not exist, findAllWooFiles
yields the empty result as the claim demands, but findProjectFolders
iterates the directory unguarded and raises a filesystem error, so
loadWorkspace fails instead of completing with empty scans. -/
theorem loadWorkspace_missing_root_raises :
    findAllWooFiles fsEmpty ["nope"] = [] ∧
    findProjectFolders fsEmpty ["nope"] = Except.error "filesystem error" ∧
    loadWorkspace fsEmpty ["nope"] = Except.error "filesystem error" := by
  exact ⟨rfl, rfl, rfl⟩

/-- C10: openDocument on a path already tracked by some project leaves the
whole analyzer state (every project map, the document heap, the allocation
counter) unchanged. -/
theorem openDocument_known_path_noop (fs : FileSystem) (s : AnalyzerState) (uri : Path)
    (h : (s.getDocument (uriToPathString uri)).isSome = true) :
    openDocument fs s uri = s := by
  simp [openDocument, h]

/-- Witness for C10 on the spec scenario workspace. -/
theorem openDocument_known_path_noop_witness :
    (stSpec.getDocument (uriToPathString ["w", "doc2.woo"])).isSome = true ∧
    openDocument fsSpec stSpec ["w", "doc2.woo"] = stSpec :=
  ⟨by decide, openDocument_known_path_noop fsSpec stSpec ["w", "doc2.woo"] (by decide)⟩

/-- C1 (code bug witness): renaming the tracked source file w/a.woo to
w/b.woo leaves the old key in the old project's map — renameFiles sets
documentPath to the new path before calling deleteDocument, which looks the
entry up by that already-updated path, so the entry at the old key
survives and the same document is reachable under both keys. -/
theorem renameFiles_keeps_stale_old_key :
    ((renameFiles fsSolo stSolo [(["w", "a.woo"], ["w", "b.woo"])]).1.projects.map
      (fun p => p.documents)) =
      [[(["w", "a.woo"], 0), (["w", "b.woo"], 0)]] ∧
    heapLookup 0
        (renameFiles fsSolo stSolo [(["w", "a.woo"], ["w", "b.woo"])]).1.docHeap =
      some { documentPath := ["w", "b.woo"], source := "" } := by
  exact ⟨by decide, by decide⟩

/-- C6 counterexample: with a marker file holding malformed content, the
project is constructed with no configuration at all (woofile is null, since
parsing is disabled), and constructing the Woofile configuration itself
propagates the parse error — it does not yield the default configuration
with an empty bibliography path as the claim states. -/
theorem woofile_malformed_not_default :
    Woofile.construct fsBadMarker ["w", "p"] = Except.error "parse error" ∧
    Woofile.construct fsBadMarker ["w", "p"] ≠ Except.ok { bibtex := "" } ∧
    (mkWooWooProject fsBadMarker ["w", "p"] [] 0).1.woofile ≠
      some { bibtex := "" } := by
  refine ⟨rfl, ?_, ?_⟩
  · intro hcontra
    rw [show Woofile.construct fsBadMarker ["w", "p"] = Except.error "parse error" from rfl]
      at hcontra
    exact Except.noConfusion hcontra
  · intro hcontra
    rw [show (mkWooWooProject fsBadMarker ["w", "p"] [] 0).1.woofile = none from rfl] at hcontra
    exact Option.noConfusion hcontra

/-- C6 amended: constructing a project never aborts on malformed marker
content because the constructor skips marker parsing altogether and leaves
the configuration unset (null rather than a parsed default); constructing
the Woofile configuration directly from malformed content fails with the
parse error instead of degrading to the default. -/
theorem project_ctor_skips_marker_parsing (fs : FileSystem) (folder : Path) (h : Heap)
    (nid : DocId) (e : String)
    (hbad : fs.markerYaml.lookup (folder ++ ["Woofile"]) = some (Except.error e)) :
    (mkWooWooProject fs folder h nid).1.woofile = none ∧
    Woofile.construct fs folder = Except.error e := by
  refine ⟨rfl, ?_⟩
  simp only [Woofile.construct, hbad, Option.getD_some]
  rfl

/-- Witness for the amended C6 on the malformed-marker workspace. -/
theorem project_ctor_skips_marker_parsing_witness :
    fsBadMarker.markerYaml.lookup (["w", "p"] ++ ["Woofile"]) =
      some (Except.error "parse error") ∧
    ((mkWooWooProject fsBadMarker ["w", "p"] [] 0).1.woofile = none ∧
      Woofile.construct fsBadMarker ["w", "p"] = Except.error "parse error") :=
  ⟨rfl, project_ctor_skips_marker_parsing fsBadMarker ["w", "p"] [] 0 "parse error" rfl⟩

/-- Witness for C3 on the single-file workspace: mutate the document at
w/a.woo through its handle, rename it to w/b.woo, observe the same handle
and the mutated text through the lookup at the new path. -/
theorem rename_preserves_document_identity_witness :
    (endsWithWoo ["w", "a.woo"] = true ∧ endsWithWoo ["w", "b.woo"] = true ∧
      pathsConsistentB stSolo = true ∧
      stSolo.getDocument ["w", "a.woo"] = some 0 ∧
      (∀ p ∈ stSolo.projects, p.getDocument ["w", "b.woo"] = none) ∧
      (firstIdxWhere (fun p => decide (p.projectFolderPath = none))
        stSolo.projects).isSome = true) ∧
    ((renameFiles fsSolo (mutateSource stSolo 0 "edited")
        [(["w", "a.woo"], ["w", "b.woo"])]).1.getDocument ["w", "b.woo"] = some 0 ∧
      heapLookup 0 (renameFiles fsSolo (mutateSource stSolo 0 "edited")
        [(["w", "a.woo"], ["w", "b.woo"])]).1.docHeap =
        some { documentPath := ["w", "b.woo"], source := "edited" }) :=
  ⟨⟨by decide, by decide, by decide, by decide, by decide, by decide⟩,
   rename_preserves_document_identity fsSolo stSolo ["w", "a.woo"] ["w", "b.woo"] 0 "edited"
     (by decide) (by decide) (by decide) (by decide) (by decide) (by decide)⟩

/-- Witness for C5 on the spec scenario workspace: renaming projA's
doc1.woo to the unclaimed w/b.woo (no marker above it) lands in the null
project, and the project identities are unchanged. -/
theorem rename_falls_back_to_orphan_witness :
    (endsWithWoo ["w", "projA", "doc1.woo"] = true ∧ endsWithWoo ["w", "b.woo"] = true ∧
      pathsConsistentB stSpec = true ∧
      stSpec.getDocument ["w", "projA", "doc1.woo"] = some 0 ∧
      (∀ p ∈ stSpec.projects,
        p.projectFolderPath ≠ findProjectFolder fsSpec stSpec.workspaceRootPath ["w", "b.woo"] ∨
        findProjectFolder fsSpec stSpec.workspaceRootPath ["w", "b.woo"] = none) ∧
      (firstIdxWhere (fun p => decide (p.projectFolderPath = none))
        stSpec.projects).isSome = true) ∧
    ((∀ renames : List (Path × Path),
      ((renameFiles fsSpec stSpec renames).1.projects).map (fun p => p.projectFolderPath) =
        stSpec.projects.map (fun p => p.projectFolderPath)) ∧
    ∃ p ∈ (renameFiles fsSpec stSpec
        [(["w", "projA", "doc1.woo"], ["w", "b.woo"])]).1.projects,
      p.projectFolderPath = none ∧ p.getDocument ["w", "b.woo"] = some 0) :=
  ⟨⟨by decide, by decide, by decide, by decide, by decide, by decide⟩,
   rename_falls_back_to_orphan fsSpec stSpec ["w", "projA", "doc1.woo"] ["w", "b.woo"] 0
     (by decide) (by decide) (by decide) (by decide) (by decide) (by decide)⟩

/-- C2 counterexample: with nested marker folders w/p and w/p/q, the file
w/p/q/a.woo is loaded into both folder projects by loadWorkspace (each
project's constructor scans its folder recursively, not stopping at nested
project boundaries), so the file is present in two projects' maps, not in
exactly one as the claim states. -/
theorem nested_markers_double_membership :
    (["w", "p", "q", "a.woo"] ∈ findAllWooFiles fsNested ["w"]) ∧
    stNested.projects.countP
      (fun p => (p.getDocument ["w", "p", "q", "a.woo"]).isSome) = 2 :=
  ⟨by decide, by decide⟩

/-- Witness for the amended C2 on the spec scenario workspace. -/
theorem load_assigns_unique_owner_witness :
    (loadWorkspace fsSpec ["w"] = Except.ok stSpec ∧
      fsSpec.files.Nodup ∧
      (∀ f ∈ fsSpec.files, underDir ["w"] f = true) ∧
      (∀ g1 ∈ fsSpec.files, ∀ g2 ∈ fsSpec.files,
        filename g1 = "Woofile" → filename g2 = "Woofile" → g1.dropLast ≠ g2.dropLast →
        underDir g1.dropLast g2.dropLast = false)) ∧
    (∀ f ∈ findAllWooFiles fsSpec ["w"],
      ∃ (i : Nat) (p : WooWooProject), stSpec.projects[i]? = some p ∧
        (p.getDocument f).isSome = true ∧
        p.projectFolderPath = nearestMarkerAncestor fsSpec f ∧
        ∀ (j : Nat) (q : WooWooProject), stSpec.projects[j]? = some q →
          (q.getDocument f).isSome = true → j = i) :=
  ⟨⟨by rfl, by decide, by decide, by decide⟩,
   load_assigns_unique_owner fsSpec ["w"] stSpec (by rfl) (by decide) (by decide) (by decide)⟩

/-- C8: an edit (documentDidChange), delete (didDeleteFiles) or rename
(renameFiles) event naming a path at which no document is tracked leaves
the whole analyzer state unchanged — every project map and every
document's contents — and raises no error. -/
theorem unknown_path_events_are_noops (fs : FileSystem) (s : AnalyzerState)
    (u v : Path) (t : String) (h : s.getDocument (uriToPathString u) = none) :
    handleDocumentChange s u t = s ∧
    didDeleteFiles s [u] = s ∧
    (renameFiles fs s [(u, v)]).1 = s := by
  refine ⟨?_, ?_, ?_⟩
  · simp [handleDocumentChange, h]
  · simp [didDeleteFiles, analyzerDeleteDocument, h]
  · have h0 : s.getDocument u = none := h
    simp only [renameFiles, renameStep, List.foldl, renameOne, uriToPathString]
    by_cases h1 : endsWithWoo u
    · by_cases h2 : endsWithWoo v
      · simp [h1, h2, h0]
      · simp [h1, h2, h0, analyzerDeleteDocument]
    · simp [h1, h0, analyzerDeleteDocument]

/-- Witness for C8 on the spec scenario workspace with a never-loaded
path. -/
theorem unknown_path_events_are_noops_witness :
    stSpec.getDocument (uriToPathString ["w", "nope.woo"]) = none ∧
    (handleDocumentChange stSpec ["w", "nope.woo"] "text" = stSpec ∧
      didDeleteFiles stSpec [["w", "nope.woo"]] = stSpec ∧
      (renameFiles fsSpec stSpec [(["w", "nope.woo"], ["w", "x.woo"])]).1 = stSpec) :=
  ⟨by decide,
   unknown_path_events_are_noops fsSpec stSpec ["w", "nope.woo"] ["w", "x.woo"] "text"
     (by decide)⟩

/-- C9: deleting a non-null document through the analyzer erases, in every
project's map (not only the owner's), exactly the entries keyed by the
document's current path; every entry at any other key, every project's
folder identity and the document heap itself are unchanged. -/
theorem analyzer_delete_erases_exactly_path (s : AnalyzerState) (d : DocId)
    (doc : WooWooDocument) (hd : heapLookup d s.docHeap = some doc)
    (hnd : ∀ p ∈ s.projects, (p.documents.map (fun e => e.1)).Nodup) :
    (analyzerDeleteDocument s (some d)).docHeap = s.docHeap ∧
    (analyzerDeleteDocument s (some d)).projects.length = s.projects.length ∧
    ∀ (i : Nat) (p p' : WooWooProject), s.projects[i]? = some p →
      (analyzerDeleteDocument s (some d)).projects[i]? = some p' →
      p'.projectFolderPath = p.projectFolderPath ∧
      p'.getDocument doc.documentPath = none ∧
      ∀ k, k ≠ doc.documentPath → p'.getDocument k = p.getDocument k := by
  have hpath : heapPathOf s.docHeap d = doc.documentPath := by
    simp [heapPathOf, hd]
  refine ⟨rfl, by simp [analyzerDeleteDocument], ?_⟩
  intro i p p' hp hp'
  have hmap : (analyzerDeleteDocument s (some d)).projects[i]? =
      some (p.deleteDoc s.docHeap d) := by
    simp [analyzerDeleteDocument, List.getElem?_map, hp]
  rw [hmap] at hp'
  have hpp : p' = p.deleteDoc s.docHeap d := (Option.some.inj hp').symm
  subst hpp
  have hmem : p ∈ s.projects := mem_of_getElem?_some hp
  refine ⟨rfl, ?_, ?_⟩
  · show assocLookup doc.documentPath (eraseKeyFirst (heapPathOf s.docHeap d) p.documents) = none
    rw [hpath]
    exact assocLookup_eraseKeyFirst_self (hnd p hmem)
  · intro k hk
    show assocLookup k (eraseKeyFirst (heapPathOf s.docHeap d) p.documents) =
      assocLookup k p.documents
    rw [hpath]
    exact assocLookup_eraseKeyFirst_ne hk p.documents

/-- Witness for C9 on the spec scenario workspace, deleting the document
loaded for w/projA/doc1.woo. -/
theorem analyzer_delete_erases_exactly_path_witness :
    heapLookup 0 stSpec.docHeap =
      some { documentPath := ["w", "projA", "doc1.woo"], source := "" } ∧
    (∀ p ∈ stSpec.projects, (p.documents.map (fun e => e.1)).Nodup) ∧
    ((analyzerDeleteDocument stSpec (some 0)).docHeap = stSpec.docHeap ∧
      (analyzerDeleteDocument stSpec (some 0)).projects.length = stSpec.projects.length ∧
      ∀ (i : Nat) (p p' : WooWooProject), stSpec.projects[i]? = some p →
        (analyzerDeleteDocument stSpec (some 0)).projects[i]? = some p' →
        p'.projectFolderPath = p.projectFolderPath ∧
        p'.getDocument ["w", "projA", "doc1.woo"] = none ∧
        ∀ k, k ≠ ["w", "projA", "doc1.woo"] → p'.getDocument k = p.getDocument k) :=
  ⟨by decide, by decide,
   analyzer_delete_erases_exactly_path stSpec 0
     { documentPath := ["w", "projA", "doc1.woo"], source := "" } (by decide) (by decide)⟩

end Wuff
